import Mathlib

/-!
# Buddy page allocator (`src/buddy.c`)

A shallow embedding of the allocator of `src/buddy.c` and theorems about it.

Conventions of the embedding.

* The global variables of the C file form the record `State`; every C function becomes a
  function from a state (and its arguments) to a result and a new state.
* Every function returns an `Option`: `none` stands for undefined behaviour of the C code
  (an array index out of bounds, a null pointer dereference, a shift by a negative count, an
  `int` shift that overflows) or for a loop that ran out of its iteration budget.  Each loop
  gets a budget that its termination argument shows to be enough.
* `int` values are integers (`Int`); the places where C converts to `int` are explicit
  (`wrap32`).  `size_t` values are naturals modulo `2 ^ 64`.
* A `struct tree_node *` always points into the array `node`; it is modelled by `Option Nat`,
  `none` being `NULL` and `some j` being `&node[j]`.  Byte addresses (`uint8_t *`, `void *`)
  are integers.
* The header `buddy.h` is not part of the sources.  Its constant `MAX_RANK` is a parameter
  of every definition that depends on the array sizes; its return codes `OK`, `-EINVAL` and
  `-ENOSPC` are modelled by `Except Errno`.
-/

namespace Buddy

/-- Error numbers of `buddy.h`; the C functions return them negated. -/
inductive Errno where
  | EINVAL
  | ENOSPC
deriving DecidableEq

deriving instance DecidableEq for Except

/-- The C type `struct tree_node`. -/
structure tree_node where
  p : Int
  is_allocated : Int
  next : Option Nat
  prev : Option Nat
deriving DecidableEq

/-- The C type `struct node_list`. -/
structure node_list where
  head : Option Nat
  size : Nat
deriving DecidableEq

/-- The global variables of `buddy.c`. -/
structure State where
  node : Nat → tree_node
  free_list : Nat → node_list
  rank_of_page : Nat → Int
  mem_start : Int
  pg_num : Int
  max_rank : Int
  max_page_num : Int

/-- The macro `MAX_PAGE_NUM`, that is `1 << (MAX_RANK - 1)`. -/
def MAX_PAGE_NUM (MAX_RANK : Nat) : Nat := 2 ^ (MAX_RANK - 1)

/-- The number of elements of the array `node`, `MAX_PAGE_NUM * 2`. -/
def NODE_NUM (MAX_RANK : Nat) : Nat := MAX_PAGE_NUM MAX_RANK * 2

/-- The state of the globals when the program starts: static storage is zero-filled. -/
def zero_state : State where
  node := fun _ => { p := 0, is_allocated := 0, next := none, prev := none }
  free_list := fun _ => { head := none, size := 0 }
  rank_of_page := fun _ => 0
  mem_start := 0
  pg_num := 0
  max_rank := 0
  max_page_num := 0

/-! ## Machine arithmetic -/

/-- Conversion of an integer to the 32-bit type `int` (two's complement). -/
def wrap32 (x : Int) : Int := (x + 2 ^ 31) % 2 ^ 32 - 2 ^ 31

/-- The C expression `a << k` on `int`: undefined unless `a` and `k` are non-negative, `k` is
less than the width and the result fits. -/
def shl (a k : Int) : Option Int :=
  if 0 ≤ a ∧ 0 ≤ k ∧ k < 32 ∧ a * 2 ^ k.toNat < 2 ^ 31 then some (a * 2 ^ k.toNat) else none

/-- The C expression `a >> k` on a non-negative `int`: undefined unless `0 ≤ k < 32`. -/
def shr (a k : Int) : Option Int :=
  if 0 ≤ k ∧ k < 32 then some (a / 2 ^ k.toNat) else none

/-- An `int` used as an index into an array of `size` elements. -/
def index (i : Int) (size : Nat) : Option Nat :=
  if 0 ≤ i ∧ i < size then some i.toNat else none

/-- The C expression `(uint8_t *)p - mem_start) >> 12` as a `ptrdiff_t`. -/
def page_of (s : State) (p : Int) : Int := (p - s.mem_start) / 4096

/-- The function `lowbit` of the source, `x & (-x)` on 32-bit two's complement `int`. -/
def lowbit (x : Int) : Int :=
  wrap32 (((x % 2 ^ 32).toNat &&& ((-x) % 2 ^ 32).toNat : Nat) : Int)

/-! ## Access to the arrays -/

/-- The array `node` with `node[j]` replaced. -/
def updNode (s : State) (j : Nat) (nd : tree_node) : State :=
  { s with node := fun k => if k = j then nd else s.node k }

/-- The array `free_list` with `free_list[i]` replaced. -/
def updList (s : State) (i : Nat) (l : node_list) : State :=
  { s with free_list := fun k => if k = i then l else s.free_list k }

/-- The array `rank_of_page` with `rank_of_page[i]` replaced. -/
def updRank (s : State) (i : Nat) (r : Int) : State :=
  { s with rank_of_page := fun k => if k = i then r else s.rank_of_page k }

/-- Read `node[j]`. -/
def getNode (MAX_RANK : Nat) (s : State) (j : Nat) : Option tree_node :=
  if j < NODE_NUM MAX_RANK then some (s.node j) else none

/-- Write `node[j]`. -/
def setNode (MAX_RANK : Nat) (s : State) (j : Nat) (nd : tree_node) : Option State :=
  if j < NODE_NUM MAX_RANK then some (updNode s j nd) else none

/-- Read `free_list[i]`. -/
def getList (MAX_RANK : Nat) (s : State) (i : Int) : Option node_list :=
  if 0 ≤ i ∧ i < MAX_RANK then some (s.free_list i.toNat) else none

/-- Write `free_list[i]`. -/
def setList (MAX_RANK : Nat) (s : State) (i : Int) (l : node_list) : Option State :=
  if 0 ≤ i ∧ i < MAX_RANK then some (updList s i.toNat l) else none

/-- Read `rank_of_page[i]`. -/
def getRank (MAX_RANK : Nat) (s : State) (i : Int) : Option Int :=
  if 0 ≤ i ∧ i < MAX_PAGE_NUM MAX_RANK then some (s.rank_of_page i.toNat) else none

/-- Write `rank_of_page[i]`. -/
def setRank (MAX_RANK : Nat) (s : State) (i : Int) (r : Int) : Option State :=
  if 0 ≤ i ∧ i < MAX_PAGE_NUM MAX_RANK then some (updRank s i.toNat r) else none

/-- Decrement of a `size_t`. -/
def size_dec (n : Nat) : Nat := (n + (2 ^ 64 - 1)) % 2 ^ 64

/-- Increment of a `size_t`. -/
def size_inc (n : Nat) : Nat := (n + 1) % 2 ^ 64

/-! ## `init_page` -/

/-- The loop `while (1 << max_rank <= pg_num && max_rank < MAX_RANK) max_rank++;`. -/
def init_rank_loop (MAX_RANK : Nat) (pg_num : Int) : Nat → Int → Option Int
  | 0, _ => none
  | fuel + 1, max_rank => do
    let v ← shl 1 max_rank
    if v ≤ pg_num ∧ max_rank < MAX_RANK then
      init_rank_loop MAX_RANK pg_num fuel (max_rank + 1)
    else
      some max_rank

/-- The inner loop `for (int j = start; j < end; j++)` of `init_page`; `p` is the running
address. -/
def init_nodes (MAX_RANK : Nat) (addr_incr end_ : Int) : Nat → State → Int → Int → Option State
  | 0, _, _, _ => none
  | fuel + 1, s, j, p =>
    if j < end_ then do
      let jn ← index j (NODE_NUM MAX_RANK)
      let s ← setNode MAX_RANK s jn { p := p, is_allocated := 0, next := none, prev := none }
      init_nodes MAX_RANK addr_incr end_ fuel s (j + 1) (p + addr_incr)
    else
      some s

/-- The outer loop `for (int i = 0; i < max_rank; i++)` of `init_page`. -/
def init_ranks (MAX_RANK : Nat) : Nat → State → Int → Option State
  | 0, _, _ => none
  | fuel + 1, s, i =>
    if i < s.max_rank then do
      let s ← setList MAX_RANK s i { head := none, size := 0 }
      let start ← shl 1 (s.max_rank - 1 - i)
      let end_ ← shl start 1
      let addr_incr ← shl 1 (i + 12)
      let s ← init_nodes MAX_RANK addr_incr end_ ((end_ - start).toNat + 1) s start s.mem_start
      init_ranks MAX_RANK fuel s (i + 1)
    else
      some s

/-- The function `init_page`. -/
def init_page (MAX_RANK : Nat) (s : State) (p : Int) (pgcount : Int) :
    Option (Except Errno Unit × State) := do
  let s := { s with mem_start := p }
  let s := { s with pg_num := pgcount }
  let s := { s with max_rank := 0 }
  let mr ← init_rank_loop MAX_RANK s.pg_num (MAX_RANK + 1) s.max_rank
  let s := { s with max_rank := mr }
  let mpn ← shl 1 (s.max_rank - 1)
  let s := { s with max_page_num := mpn }
  let s ← init_ranks MAX_RANK (s.max_rank.toNat + 1) s 0
  let l ← getList MAX_RANK s (s.max_rank - 1)
  let s ← setList MAX_RANK s (s.max_rank - 1) { l with head := some 1 }
  let l ← getList MAX_RANK s (s.max_rank - 1)
  let s ← setList MAX_RANK s (s.max_rank - 1) { l with size := 1 }
  some (.ok (), s)

/-! ## `alloc_pages` -/

/-- The loop `while (n == NULL)` of `alloc_pages`, entered with `n == NULL`.  The result is
`none` for undefined behaviour, `some none` for the `return (void *)-ENOSPC` inside the loop,
and `some (some (i, n))` when the loop ends with a non-null `n` at rank `i`. -/
def alloc_search (MAX_RANK : Nat) (s : State) : Nat → Int → Option (Option (Int × Nat))
  | 0, _ => none
  | fuel + 1, i =>
    let i := i + 1
    if i > s.max_rank then
      some none
    else do
      let l ← getList MAX_RANK s (i - 1)
      match l.head with
      | none => alloc_search MAX_RANK s fuel i
      | some n => some (some (i, n))

/-- The lines of `alloc_pages` under `// remove from free list`. -/
def alloc_unlink (MAX_RANK : Nat) (s : State) (i : Int) (n : Nat) : Option State := do
  let nd ← getNode MAX_RANK s n
  let s ← (match nd.next with
    | none => some s
    | some nx => do
      let nxd ← getNode MAX_RANK s nx
      setNode MAX_RANK s nx { nxd with prev := none })
  let nd ← getNode MAX_RANK s n
  let l ← getList MAX_RANK s (i - 1)
  let s ← setList MAX_RANK s (i - 1) { l with head := nd.next }
  let l ← getList MAX_RANK s (i - 1)
  let s ← setList MAX_RANK s (i - 1) { l with size := size_dec l.size }
  let nd ← getNode MAX_RANK s n
  setNode MAX_RANK s n { nd with next := none }

/-- The loop `while (i > rank)` of `alloc_pages`, which splits a larger block; the result is
the state and the final `n`. -/
def alloc_split (MAX_RANK : Nat) (rank : Int) : Nat → State → Int → Nat → Option (State × Nat)
  | 0, _, _, _ => none
  | fuel + 1, s, i, n =>
    if i > rank then do
      let nd ← getNode MAX_RANK s n
      let s ← setNode MAX_RANK s n { nd with is_allocated := 1 }
      let i := i - 1
      let node_idx : Int := n
      let dbl ← shl node_idx 1
      let rc ← index (Int.ofNat (dbl.toNat ||| 1)) (NODE_NUM MAX_RANK)
      let l ← getList MAX_RANK s (i - 1)
      let s ← setList MAX_RANK s (i - 1) { l with head := some rc }
      let l ← getList MAX_RANK s (i - 1)
      let s ← setList MAX_RANK s (i - 1) { l with size := 1 }
      let n ← index dbl (NODE_NUM MAX_RANK)
      alloc_split MAX_RANK rank fuel s i n
    else
      some (s, n)

/-- The function `alloc_pages`. -/
def alloc_pages (MAX_RANK : Nat) (s : State) (rank : Int) :
    Option (Except Errno Int × State) := do
  let i := rank
  let l ← getList MAX_RANK s (i - 1)
  let found ← (match l.head with
    | some n => some (some (i, n))
    | none => alloc_search MAX_RANK s ((s.max_rank - rank).toNat + 1) i)
  match found with
  | none => some (.error .ENOSPC, s)
  | some (i, n) => do
    let s ← alloc_unlink MAX_RANK s i n
    let (s, n) ← alloc_split MAX_RANK rank ((i - rank).toNat + 1) s i n
    let nd ← getNode MAX_RANK s n
    let s ← setNode MAX_RANK s n { nd with is_allocated := 1 }
    let nd ← getNode MAX_RANK s n
    let s ← setRank MAX_RANK s (page_of s nd.p) rank
    let nd ← getNode MAX_RANK s n
    some (.ok nd.p, s)

/-! ## `return_pages` -/

/-- The lines of `return_pages` under `// remove buddy from free list`, up to the decrement
of the list size. -/
def return_unlink (MAX_RANK : Nat) (s : State) (rank : Int) (buddy : Nat) : Option State := do
  let bd ← getNode MAX_RANK s buddy
  let s ← (match bd.prev with
    | some pv => do
      let pvd ← getNode MAX_RANK s pv
      let bd ← getNode MAX_RANK s buddy
      setNode MAX_RANK s pv { pvd with next := bd.next }
    | none => do
      let l ← getList MAX_RANK s (rank - 1)
      setList MAX_RANK s (rank - 1) { l with head := bd.next })
  let bd ← getNode MAX_RANK s buddy
  let s ← (match bd.next with
    | some nx => do
      let nxd ← getNode MAX_RANK s nx
      let bd ← getNode MAX_RANK s buddy
      setNode MAX_RANK s nx { nxd with prev := bd.prev }
    | none => some s)
  let l ← getList MAX_RANK s (rank - 1)
  setList MAX_RANK s (rank - 1) { l with size := size_dec l.size }

/-- The loop `while (rank < max_rank)` of `return_pages`, which merges with the buddy; the
result is the state and the final `rank` and `node_idx`. -/
def return_merge (MAX_RANK : Nat) : Nat → State → Int → Int → Option (State × Int × Int)
  | 0, _, _, _ => none
  | fuel + 1, s, rank, node_idx =>
    if rank < s.max_rank then do
      let ni ← index node_idx (NODE_NUM MAX_RANK)
      let nd ← getNode MAX_RANK s ni
      let s ← setNode MAX_RANK s ni { nd with is_allocated := 0 }
      let buddy_idx : Int := Int.ofNat (ni ^^^ 1)
      let buddy ← index buddy_idx (NODE_NUM MAX_RANK)
      let bd ← getNode MAX_RANK s buddy
      if bd.is_allocated ≠ 0 then
        some (s, rank, node_idx)
      else do
        let s ← return_unlink MAX_RANK s rank buddy
        let node_idx ← shr node_idx 1
        return_merge MAX_RANK fuel s (rank + 1) node_idx
    else
      some (s, rank, node_idx)

/-- The lines of `return_pages` under `// add to free list`. -/
def return_push (MAX_RANK : Nat) (s : State) (rank : Int) (node_idx : Int) : Option State := do
  let l ← getList MAX_RANK s (rank - 1)
  let ni ← index node_idx (NODE_NUM MAX_RANK)
  let nd ← getNode MAX_RANK s ni
  let s ← setNode MAX_RANK s ni { nd with next := l.head }
  let l ← getList MAX_RANK s (rank - 1)
  let s ← (match l.head with
    | some h => do
      let hd ← getNode MAX_RANK s h
      setNode MAX_RANK s h { hd with prev := some ni }
    | none => some s)
  let l ← getList MAX_RANK s (rank - 1)
  let s ← setList MAX_RANK s (rank - 1) { l with head := some ni }
  let l ← getList MAX_RANK s (rank - 1)
  setList MAX_RANK s (rank - 1) { l with size := size_inc l.size }

/-- The function `return_pages`. -/
def return_pages (MAX_RANK : Nat) (s : State) (p : Int) :
    Option (Except Errno Unit × State) :=
  let page_idx := wrap32 (page_of s p)
  if page_idx < 0 ∨ page_idx ≥ s.max_page_num then
    some (.error .EINVAL, s)
  else do
    let rank ← getRank MAX_RANK s page_idx
    if rank = -1 then
      some (.error .EINVAL, s)
    else do
      let s ← setRank MAX_RANK s page_idx (-1)
      let node_idx ← shr (s.max_page_num + page_idx) (rank - 1)
      let (s, rank, node_idx) ←
        return_merge MAX_RANK ((s.max_rank - rank).toNat + 1) s rank node_idx
      let s ← return_push MAX_RANK s rank node_idx
      some (.ok (), s)

/-! ## `query_ranks` and `query_page_counts` -/

/-- The loop `for (int i = page_idx + 1; i < page_idx + low_bit; i += lowbit(i))` of
`query_ranks`; the result is the final `rank`. -/
def query_walk (MAX_RANK : Nat) (s : State) (bound : Int) : Nat → Int → Int → Option Int
  | 0, _, _ => none
  | fuel + 1, i, rank =>
    if i < bound then do
      let r ← getRank MAX_RANK s i
      if r ≠ -1 then
        some rank
      else
        query_walk MAX_RANK s bound fuel (i + lowbit i) (rank + 1)
    else
      some rank

/-- The function `query_ranks`. -/
def query_ranks (MAX_RANK : Nat) (s : State) (p : Int) : Option (Except Errno Int) :=
  let page_idx := wrap32 (page_of s p)
  if page_idx < 0 ∨ page_idx ≥ s.max_page_num then
    some (.error .EINVAL)
  else do
    let rank ← getRank MAX_RANK s page_idx
    if rank = -1 then do
      let rank := 1
      let one ← shl 1 (s.max_rank - 1)
      let low_bit := lowbit (Int.ofNat (one.toNat ||| page_idx.toNat))
      let rank ← query_walk MAX_RANK s (page_idx + low_bit) (low_bit.toNat + 1)
        (page_idx + 1) rank
      some (.ok rank)
    else
      some (.ok rank)

/-- The loop of `query_ranks` with its reads recorded: the result is the final `rank`
together with the indices `i` at which `rank_of_page[i]` was evaluated, in the order of the
reads. -/
def query_walk_probes (MAX_RANK : Nat) (s : State) (bound : Int) :
    Nat → Int → Int → Option (Int × List Int)
  | 0, _, _ => none
  | fuel + 1, i, rank =>
    if i < bound then do
      let r ← getRank MAX_RANK s i
      if r ≠ -1 then
        some (rank, [i])
      else do
        let res ← query_walk_probes MAX_RANK s bound fuel (i + lowbit i) (rank + 1)
        some (res.1, i :: res.2)
    else
      some (rank, [])

/-- The function `query_ranks` with the reads of its loop recorded: the result of the call
and the indices at which the loop evaluated `rank_of_page`. -/
def query_ranks_probes (MAX_RANK : Nat) (s : State) (p : Int) :
    Option (Except Errno Int × List Int) :=
  let page_idx := wrap32 (page_of s p)
  if page_idx < 0 ∨ page_idx ≥ s.max_page_num then
    some (.error .EINVAL, [])
  else do
    let rank ← getRank MAX_RANK s page_idx
    if rank = -1 then do
      let rank := 1
      let one ← shl 1 (s.max_rank - 1)
      let low_bit := lowbit (Int.ofNat (one.toNat ||| page_idx.toNat))
      let res ← query_walk_probes MAX_RANK s (page_idx + low_bit) (low_bit.toNat + 1)
        (page_idx + 1) rank
      some (.ok res.1, res.2)
    else
      some (.ok rank, [])

/-- The function `query_page_counts`; the `size_t` is converted to `int`. -/
def query_page_counts (MAX_RANK : Nat) (s : State) (rank : Int) : Option Int := do
  let l ← getList MAX_RANK s (rank - 1)
  some (wrap32 l.size)

/-! ## Sequences of calls -/

/-- A call of the interface made after `init_page`. -/
inductive Call where
  | alloc_pages (rank : Int)
  | return_pages (p : Int)

/-- An outstanding allocation: the address returned by `alloc_pages` and the rank asked for. -/
abbrev Allocation := Int × Int

/-- One call, from a state and the list of the outstanding allocations: a successful
`alloc_pages` adds its result to the list, a successful `return_pages` removes the address
it was given.  The result is `none` when the call has undefined behaviour. -/
def step (MAX_RANK : Nat) (st : State × List Allocation) :
    Call → Option (State × List Allocation)
  | .alloc_pages rank =>
    match alloc_pages MAX_RANK st.1 rank with
    | some (.ok a, s) => some (s, (a, rank) :: st.2)
    | some (.error _, s) => some (s, st.2)
    | none => none
  | .return_pages p =>
    match return_pages MAX_RANK st.1 p with
    | some (.ok _, s) => some (s, st.2.filter fun o => o.1 ≠ p)
    | some (.error _, s) => some (s, st.2)
    | none => none

/-- A sequence of calls. -/
def run (MAX_RANK : Nat) :
    State × List Allocation → List Call → Option (State × List Allocation)
  | st, [] => some st
  | st, c :: cs => (step MAX_RANK st c).bind fun st => run MAX_RANK st cs

/-- The program from its start: `init_page(base, pgcount)` on the zero-filled globals, then
a sequence of calls. -/
def boot (MAX_RANK : Nat) (base pgcount : Int) (cs : List Call) :
    Option (State × List Allocation) :=
  match init_page MAX_RANK zero_state base pgcount with
  | some (.ok _, s) => run MAX_RANK (s, []) cs
  | _ => none

/-- The states reachable from `init_page(base, pgcount)` by calls of `alloc_pages` and
`return_pages`, with the allocations outstanding in them. -/
def Reachable (MAX_RANK : Nat) (base pgcount : Int) (s : State) (out : List Allocation) : Prop :=
  ∃ cs, boot MAX_RANK base pgcount cs = some (s, out)

/-- The end of the bytes of an allocation `a`: its block of rank `a.2` starts at the address
`a.1` and ends before `blockEnd a`. -/
def blockEnd (a : Allocation) : Int := a.1 + 4096 * 2 ^ (a.2 - 1).toNat

/-- Two allocations share a page. -/
def overlap (a b : Allocation) : Bool := decide (a.1 < blockEnd b) && decide (b.1 < blockEnd a)

/-- The list of `query_page_counts(k)` for `k = 1 .. n`. -/
def page_counts (MAX_RANK : Nat) (s : State) (n : Nat) : List (Option Int) :=
  (List.range n).map fun k => query_page_counts MAX_RANK s (k + 1)

/-- The state component of an optional result, the zero-filled state if there is none. -/
def state_of {α : Type} (x : Option (α × State)) : State :=
  match x with
  | some r => r.2
  | none => zero_state

/-- A 16-page arena at address 65536 right after `init_page`, for `MAX_RANK = 16`. -/
def arena16 : State := state_of (init_page 16 zero_state 65536 16)

/-- The state `arena16` after `alloc_pages(3)`. -/
def arena16_alloc3 : State := state_of (alloc_pages 16 arena16 3)

/-- The nodes reached from a list head by following `next`, at most `fuel` of them. -/
def list_nodes (s : State) : Nat → Option Nat → List Nat
  | 0, _ => []
  | _ + 1, none => []
  | fuel + 1, some j => j :: list_nodes s fuel (s.node j).next

/-- The nodes on the free lists of the ranks `1 .. n`. -/
def free_lists (s : State) (n : Nat) : List (List Nat) :=
  (List.range n).map fun i => list_nodes s 64 (s.free_list i).head

/-- The state `arena16` after `alloc_pages(5)`, which takes the whole arena. -/
def arena16_alloc5 : State := state_of (alloc_pages 16 arena16 5)

/-- The 16-page arena after `alloc_pages(1)` twice and `return_pages` of the first of the
two pages: page 0 is free again and page 1 is allocated. -/
def arena16_hole : State :=
  match boot 16 65536 16 [.alloc_pages 1, .alloc_pages 1, .return_pages 65536] with
  | some st => st.1
  | none => zero_state

/-- The head of the free list of rank `r` when the first pages of the arena have been handed
out one by one and `d` pages are left: there is a free block of rank `r` when bit `r - 1`
of `d` is set. -/
def exhaust_head (mr d r : Nat) : Option Nat :=
  if (d / 2 ^ (r - 1)) % 2 = 1 then some (2 ^ (mr + 1 - r) - d / 2 ^ (r - 1)) else none

/-- The results of `n` consecutive calls `alloc_pages(1)`, and the state after them. -/
def alloc_ones (MAX_RANK : Nat) : Nat → State → Option (List (Except Errno Int) × State)
  | 0, s => some ([], s)
  | n + 1, s =>
    match alloc_pages MAX_RANK s 1 with
    | some (r, s1) => (alloc_ones MAX_RANK n s1).map fun x => (r :: x.1, x.2)
    | none => none

/-- The spec's words for `maxRank` without the cap: `r` is the "largest r with
2^r ≤ pgcount". -/
def spec_largest_rank (pgcount : Int) (r : Nat) : Prop :=
  (2 : Int) ^ r ≤ pgcount ∧ ∀ r' : Nat, (2 : Int) ^ r' ≤ pgcount → r' ≤ r

/-! ## Predicates used in the proofs -/

/-- The integer globals are the same in both states. -/
def Frame (s s' : State) : Prop :=
  s'.mem_start = s.mem_start ∧ s'.pg_num = s.pg_num ∧ s'.max_rank = s.max_rank ∧
    s'.max_page_num = s.max_page_num

/-- Node index `j` lies on level `l` of the tree; the root `node[1]` is level 0, and the
nodes of rank `r` are those of level `max_rank - r`. -/
def AtLevel (l j : Nat) : Prop := 2 ^ l ≤ j ∧ j < 2 ^ (l + 1)

/-- The index of the first page of the block of node `j`, a node of level `l`, when
`max_rank` is `mr`. -/
def node_page (mr l j : Nat) : Nat := (j - 2 ^ l) * 2 ^ (mr - 1 - l)

/-- What `init_page(base, pg)` leaves behind, in terms of the state `s0` it started from;
`mr` is the value of `max_rank`. -/
structure Fresh (M : Nat) (s0 : State) (base pg : Int) (mr : Nat) (s : State) : Prop where
  mr_pos : 1 ≤ mr
  mr_le : mr ≤ M
  mr_small : mr ≤ 19
  pow_le : ∀ k : Nat, k < mr → (2 : Int) ^ k ≤ pg
  stop : mr = M ∨ pg < 2 ^ mr
  max_rank_eq : s.max_rank = mr
  max_page_num_eq : s.max_page_num = ((2 ^ (mr - 1) : Nat) : Int)
  mem_start_eq : s.mem_start = base
  pg_num_eq : s.pg_num = pg
  rank_of_page_eq : s.rank_of_page = s0.rank_of_page
  lists_below : ∀ k : Nat, k < mr - 1 → s.free_list k = { head := none, size := 0 }
  list_top : s.free_list (mr - 1) = { head := some 1, size := 1 }
  lists_above : ∀ k : Nat, mr ≤ k → s.free_list k = s0.free_list k
  nodes : ∀ l j : Nat, l < mr → AtLevel l j → s.node j =
    { p := base + 4096 * (((j : Int) - 2 ^ l) * 2 ^ (mr - 1 - l)),
      is_allocated := 0, next := none, prev := none }
  nodes_outside : ∀ j : Nat, j < 1 ∨ 2 ^ mr ≤ j → s.node j = s0.node j

/-- The structural invariant of the allocator: the node addresses are those computed by
`init_page`, every pointer of a free list of rank `r` (its head and the links of its nodes)
points to a node of rank `r`, and the entries of `rank_of_page` are `-1`, `0` or a rank. -/
structure Inv (M : Nat) (base : Int) (mr : Nat) (s : State) : Prop where
  mr_pos : 1 ≤ mr
  mr_le : mr ≤ M
  mr_small : mr ≤ 19
  max_rank_eq : s.max_rank = mr
  max_page_num_eq : s.max_page_num = ((2 ^ (mr - 1) : Nat) : Int)
  mem_start_eq : s.mem_start = base
  addr : ∀ l j : Nat, l < mr → AtLevel l j →
    (s.node j).p = base + 4096 * (((j : Int) - 2 ^ l) * 2 ^ (mr - 1 - l))
  head : ∀ i j : Nat, i < mr → (s.free_list i).head = some j → AtLevel (mr - 1 - i) j
  above : ∀ i : Nat, mr ≤ i → (s.free_list i).head = none
  next : ∀ l j j' : Nat, l < mr → AtLevel l j → (s.node j).next = some j' → AtLevel l j'
  prev : ∀ l j j' : Nat, l < mr → AtLevel l j → (s.node j).prev = some j' → AtLevel l j'
  rank : ∀ k : Nat, k < 2 ^ (mr - 1) → -1 ≤ s.rank_of_page k ∧ s.rank_of_page k ≤ mr

/-- The state after `j` calls `alloc_pages(1)` on a fresh arena: the invariant holds, no
node has a `next`, and the free lists are those of `exhaust_head` for the
`2 ^ (mr - 1) - j` pages that are left, each with the number of its nodes as `size`. -/
structure Exhausting (M : Nat) (base : Int) (mr j : Nat) (s : State) : Prop where
  inv : Inv M base mr s
  le : j ≤ 2 ^ (mr - 1)
  next : ∀ x : Nat, (s.node x).next = none
  lists : ∀ r : Nat, 1 ≤ r → r ≤ mr →
    s.free_list (r - 1) =
      { head := exhaust_head mr (2 ^ (mr - 1) - j) r,
        size := (exhaust_head mr (2 ^ (mr - 1) - j) r).toList.length }

/-! # Theorems -/

/-! ## Arithmetic -/

theorem wrap32_of_range {x : Int} (h0 : -2 ^ 31 ≤ x) (h1 : x < 2 ^ 31) : wrap32 x = x := by
  unfold wrap32
  norm_num at *
  omega

theorem shl_one_eq {k : Int} {n : Nat} (hk : k = n) (hn : n ≤ 30) :
    shl 1 k = some ((2 ^ n : Nat) : Int) := by
  subst hk
  have h2 : (2 : Int) ^ n < 2 ^ 31 := by
    have : (2 : Int) ^ n ≤ 2 ^ 30 := pow_le_pow_right₀ (by norm_num) hn
    have h3 : (2 : Int) ^ 30 < 2 ^ 31 := by norm_num
    omega
  unfold shl
  rw [if_pos]
  · simp
  · refine ⟨by norm_num, by omega, by omega, ?_⟩
    simpa using h2

theorem shl_by_one {a : Int} {n : Nat} (ha : a = n) (hn : 2 * n < 2 ^ 31) :
    shl a 1 = some ((2 * n : Nat) : Int) := by
  subst ha
  unfold shl
  rw [if_pos]
  · simp; ring
  · refine ⟨by omega, by norm_num, by norm_num, ?_⟩
    simp
    norm_num at hn
    omega

theorem index_eq {i : Int} {n size : Nat} (hi : i = n) (hn : n < size) :
    index i size = some n := by
  subst hi
  unfold index
  rw [if_pos]
  · simp
  · omega

theorem lor_one (n : Nat) : (2 * n) ||| 1 = 2 * n + 1 := by
  have h1 : 2 * n = Nat.bit false n := by simp [Nat.bit_val]
  have h2 : (1 : Nat) = Nat.bit true 0 := by simp [Nat.bit_val]
  rw [h1]
  nth_rewrite 1 [h2]
  rw [Nat.lor_bit]
  simp [Nat.bit_val]

theorem xor_one_even (n : Nat) : (2 * n) ^^^ 1 = 2 * n + 1 := by
  have h1 : 2 * n = Nat.bit false n := by simp [Nat.bit_val]
  have h2 : (1 : Nat) = Nat.bit true 0 := by simp [Nat.bit_val]
  rw [h1]
  nth_rewrite 1 [h2]
  rw [Nat.xor_bit]
  simp [Nat.bit_val]

theorem xor_one_odd (n : Nat) : (2 * n + 1) ^^^ 1 = 2 * n := by
  have h1 : 2 * n + 1 = Nat.bit true n := by simp [Nat.bit_val]
  have h2 : (1 : Nat) = Nat.bit true 0 := by simp [Nat.bit_val]
  rw [h1]
  nth_rewrite 1 [h2]
  rw [Nat.xor_bit]
  simp [Nat.bit_val]

theorem node_num_eq {M : Nat} (hM : 1 ≤ M) : NODE_NUM M = 2 ^ M := by
  unfold NODE_NUM MAX_PAGE_NUM
  obtain ⟨k, rfl⟩ : ∃ k, M = k + 1 := ⟨M - 1, by omega⟩
  simp [pow_succ]

theorem pow_le_node_num {M n : Nat} (hM : 1 ≤ M) (hn : n ≤ M) : 2 ^ n ≤ NODE_NUM M := by
  rw [node_num_eq hM]
  exact Nat.pow_le_pow_right (by norm_num) hn

/-! ## Reads and writes inside the arrays -/

theorem getNode_eq {M : Nat} {s : State} {j : Nat} (h : j < NODE_NUM M) :
    getNode M s j = some (s.node j) := by
  simp [getNode, h]

theorem setNode_eq {M : Nat} {s : State} {j : Nat} (nd : tree_node) (h : j < NODE_NUM M) :
    setNode M s j nd = some (updNode s j nd) := by
  simp [setNode, h]

theorem getList_eq {M : Nat} {s : State} {i : Int} {k : Nat} (hi : i = k) (hk : k < M) :
    getList M s i = some (s.free_list k) := by
  subst hi
  simp [getList, hk]

theorem setList_eq {M : Nat} {s : State} {i : Int} {k : Nat} (l : node_list) (hi : i = k)
    (hk : k < M) : setList M s i l = some (updList s k l) := by
  subst hi
  simp [setList, hk]

theorem getRank_eq {M : Nat} {s : State} {i : Int} {k : Nat} (hi : i = k)
    (hk : k < MAX_PAGE_NUM M) : getRank M s i = some (s.rank_of_page k) := by
  subst hi
  simp [getRank, hk]

theorem setRank_eq {M : Nat} {s : State} {i : Int} {k : Nat} (r : Int) (hi : i = k)
    (hk : k < MAX_PAGE_NUM M) : setRank M s i r = some (updRank s k r) := by
  subst hi
  simp [setRank, hk]

/-! ## `init_page` -/

theorem init_rank_loop_spec (M : Nat) (pg : Int) (hsmall : M ≤ 19 ∨ pg < 2 ^ 19) :
    ∀ (fuel m : Nat), m ≤ M → M - m < fuel → (∀ k : Nat, k < m → (2 : Int) ^ k ≤ pg) →
      ∃ mr : Nat, init_rank_loop M pg fuel m = some (mr : Int) ∧ m ≤ mr ∧ mr ≤ M ∧ mr ≤ 19 ∧
        (∀ k : Nat, k < mr → (2 : Int) ^ k ≤ pg) ∧ (mr = M ∨ pg < 2 ^ mr) := by
  intro fuel
  induction fuel with
  | zero => intro m _ hf; omega
  | succ fuel ih =>
    intro m hm hf hinv
    have hm19 : m ≤ 19 := by
      rcases hsmall with h | h
      · omega
      · by_contra hc
        have := hinv 19 (by omega)
        omega
    unfold init_rank_loop
    rw [shl_one_eq rfl (by omega)]
    simp only [Option.bind_eq_bind, Option.some_bind]
    by_cases hc : ((2 ^ m : Nat) : Int) ≤ pg ∧ (m : Int) < M
    · rw [if_pos hc]
      have hm' : m + 1 ≤ M := by omega
      obtain ⟨mr, h1, h2, h3, h4, h5, h6⟩ := ih (m + 1) hm' (by omega) (by
        intro k hk
        by_cases hkm : k = m
        · subst hkm; simpa using hc.1
        · exact hinv k (by omega))
      refine ⟨mr, ?_, by omega, h3, h4, h5, h6⟩
      simpa using h1
    · rw [if_neg hc]
      refine ⟨m, rfl, le_refl _, hm, hm19, hinv, ?_⟩
      by_cases hmM : m = M
      · exact Or.inl hmM
      · right
        have : ¬ ((2 ^ m : Nat) : Int) ≤ pg := fun h => hc ⟨h, by omega⟩
        push_cast at this
        omega

theorem some_bind {α β : Type} (a : α) (f : α → Option β) : (some a >>= f) = f a := rfl

theorem Frame.refl (s : State) : Frame s s := ⟨rfl, rfl, rfl, rfl⟩

theorem Frame.trans {s s' s'' : State} (h : Frame s s') (h' : Frame s' s'') : Frame s s'' :=
  ⟨h'.1.trans h.1, h'.2.1.trans h.2.1, h'.2.2.1.trans h.2.2.1, h'.2.2.2.trans h.2.2.2⟩

theorem init_nodes_spec (M : Nat) (incr : Int) (e : Nat) (he : e ≤ NODE_NUM M) :
    ∀ (fuel : Nat) (s : State) (j : Nat) (p : Int), j ≤ e → e - j < fuel →
      ∃ s', init_nodes M incr e fuel s j p = some s' ∧ Frame s s' ∧
        s'.free_list = s.free_list ∧ s'.rank_of_page = s.rank_of_page ∧
        (∀ k : Nat, j ≤ k → k < e → s'.node k =
          { p := p + ((k : Int) - j) * incr, is_allocated := 0, next := none, prev := none }) ∧
        (∀ k : Nat, k < j ∨ e ≤ k → s'.node k = s.node k) := by
  intro fuel
  induction fuel with
  | zero => intro s j p _ hf; omega
  | succ fuel ih =>
    intro s j p hje hf
    unfold init_nodes
    by_cases hlt : j < e
    · have hc : (j : Int) < (e : Int) := by omega
      rw [if_pos hc, index_eq rfl (by omega), some_bind, setNode_eq _ (by omega), some_bind]
      have hj1 : (j : Int) + 1 = ((j + 1 : Nat) : Int) := by push_cast; ring
      rw [hj1]
      obtain ⟨s', h1, h2, h3, h4, h5, h6⟩ := ih (updNode s j
        { p := p, is_allocated := 0, next := none, prev := none }) (j + 1) (p + incr)
        (by omega) (by omega)
      refine ⟨s', h1, h2, h3, h4, ?_, ?_⟩
      · intro k hjk hke
        by_cases hkj : k = j
        · subst hkj
          rw [h6 k (Or.inl (by omega))]
          simp [updNode]
        · rw [h5 k (by omega) hke]
          congr 1
          push_cast
          ring
      · intro k hk
        rw [h6 k (by omega)]
        have : k ≠ j := by omega
        simp [updNode, this]
    · have hc : ¬ (j : Int) < (e : Int) := by omega
      rw [if_neg hc]
      exact ⟨s, rfl, Frame.refl s, rfl, rfl, fun k h1 h2 => by omega, fun k _ => rfl⟩

theorem init_ranks_spec (M mr : Nat) (hM : 1 ≤ M) (hmrM : mr ≤ M) (hmr : mr ≤ 19) :
    ∀ (fuel : Nat) (s : State) (i : Nat), s.max_rank = mr → i ≤ mr → mr - i < fuel →
      ∃ s', init_ranks M fuel s i = some s' ∧ Frame s s' ∧
        s'.rank_of_page = s.rank_of_page ∧
        (∀ k : Nat, i ≤ k → k < mr → s'.free_list k = { head := none, size := 0 }) ∧
        (∀ k : Nat, k < i ∨ mr ≤ k → s'.free_list k = s.free_list k) ∧
        (∀ l j : Nat, l < mr - i → AtLevel l j → s'.node j =
          { p := s.mem_start + ((j : Int) - 2 ^ l) * 2 ^ (mr - 1 - l + 12),
            is_allocated := 0, next := none, prev := none }) ∧
        (∀ j : Nat, j < 1 ∨ 2 ^ (mr - i) ≤ j → s'.node j = s.node j) := by
  intro fuel
  induction fuel with
  | zero => intro s i _ _ hf; omega
  | succ fuel ih =>
    intro s i hs hi hf
    unfold init_ranks
    by_cases hlt : i < mr
    · have hc : (i : Int) < s.max_rank := by omega
      rw [if_pos hc, setList_eq _ rfl (by omega), some_bind]
      have hs1 : (updList s i { head := none, size := 0 }).max_rank = mr := hs
      rw [hs1, shl_one_eq (n := mr - 1 - i) (by omega) (by omega), some_bind,
        shl_by_one (n := 2 ^ (mr - 1 - i)) rfl (by
          have : 2 ^ (mr - 1 - i) ≤ 2 ^ 19 := Nat.pow_le_pow_right (by norm_num) (by omega)
          omega),
        some_bind, shl_one_eq (n := i + 12) (by push_cast; ring) (by omega),
        some_bind]
      have hpow : 2 * 2 ^ (mr - 1 - i) = 2 ^ (mr - i) := by
        rw [← pow_succ']
        congr 1
        omega
      have hend : 2 ^ (mr - i) ≤ NODE_NUM M := pow_le_node_num hM (by omega)
      rw [hpow]
      obtain ⟨s2, h1, h2, h3, h4, h5, h6⟩ := init_nodes_spec M ((2 ^ (i + 12) : Nat) : Int)
        (2 ^ (mr - i)) hend
        ((((2 ^ (mr - i) : Nat) : Int) - ((2 ^ (mr - 1 - i) : Nat) : Int)).toNat + 1)
        (updList s i { head := none, size := 0 }) (2 ^ (mr - 1 - i))
        (updList s i { head := none, size := 0 }).mem_start (by omega) (by omega)
      rw [h1, some_bind]
      have hi1 : (i : Int) + 1 = ((i + 1 : Nat) : Int) := by push_cast; ring
      rw [hi1]
      obtain ⟨s', g1, g2, g3, g4, g5, g6, g7⟩ := ih s2 (i + 1) (by rw [h2.2.2.1]; exact hs)
        (by omega) (by omega)
      refine ⟨s', g1, Frame.trans (Frame.trans ⟨rfl, rfl, rfl, rfl⟩ h2) g2, ?_, ?_, ?_, ?_, ?_⟩
      · rw [g3, h4]; rfl
      · intro k hik hk
        by_cases hki : k = i
        · subst hki
          rw [g5 k (Or.inl (by omega)), h3]
          simp [updList]
        · exact g4 k (by omega) hk
      · intro k hk
        rw [g5 k (by omega), h3]
        have : k ≠ i := by omega
        simp [updList, this]
      · intro l j hl hlj
        by_cases hll : l < mr - (i + 1)
        · rw [g6 l j hll hlj, h2.1]
          rfl
        · have hle : l = mr - 1 - i := by omega
          subst hle
          have hlj' := hlj
          unfold AtLevel at hlj'
          have hmi : mr - 1 - i + 1 = mr - i := by omega
          rw [hmi] at hlj'
          have hmi2 : mr - (i + 1) = mr - 1 - i := by omega
          rw [g7 j (Or.inr (by rw [hmi2]; exact hlj'.1)), h5 j hlj'.1 hlj'.2]
          have hmi3 : mr - 1 - (mr - 1 - i) + 12 = i + 12 := by omega
          rw [hmi3]
          simp [updList]
      · intro j hj
        rw [g7 j (by
          rcases hj with h | h
          · exact Or.inl h
          · right
            have : 2 ^ (mr - (i + 1)) ≤ 2 ^ (mr - i) :=
              Nat.pow_le_pow_right (by norm_num) (by omega)
            omega)]
        rw [h6 j (by
          rcases hj with h | h
          · left
            have : 0 < 2 ^ (mr - 1 - i) := Nat.two_pow_pos _
            omega
          · exact Or.inr h)]
        rfl
    · have hc : ¬ (i : Int) < s.max_rank := by omega
      rw [if_neg hc]
      refine ⟨s, rfl, Frame.refl s, rfl, fun k h1 h2 => by omega, fun k _ => rfl, ?_, fun j _ => rfl⟩
      intro l j hl
      omega

theorem init_page_spec (M : Nat) (s0 : State) (base pg : Int) (hM : 1 ≤ M) (hpg : 1 ≤ pg)
    (hsmall : M ≤ 19 ∨ pg < 2 ^ 19) :
    ∃ (s : State) (mr : Nat), init_page M s0 base pg = some (.ok (), s) ∧
      Fresh M s0 base pg mr s := by
  obtain ⟨mr, h1, -, h3, h4, h5, h6⟩ := init_rank_loop_spec M pg hsmall (M + 1) 0 (by omega)
    (by omega) (by intro k hk; omega)
  have hmr1 : 1 ≤ mr := by
    by_contra hc
    have : mr = 0 := by omega
    subst this
    rcases h6 with h | h
    · omega
    · simp at h; omega
  unfold init_page
  simp only [Nat.cast_zero] at h1
  simp only []
  rw [h1, some_bind, shl_one_eq (n := mr - 1) (by omega) (by omega), some_bind]
  obtain ⟨s1, g1, g2, g3, g4, g5, g6, g7⟩ := init_ranks_spec M mr hM h3 h4 (mr + 1)
    { s0 with mem_start := base, pg_num := pg, max_rank := (mr : Int),
              max_page_num := ((2 ^ (mr - 1) : Nat) : Int) } 0 rfl (by omega) (by omega)
  simp only [Int.toNat_ofNat, Nat.cast_zero] at g1 ⊢
  rw [g1, some_bind]
  have hmx : s1.max_rank = mr := g2.2.2.1
  rw [hmx, getList_eq (k := mr - 1) (by omega) (by omega), some_bind,
    setList_eq (k := mr - 1) _ (by omega) (by omega), some_bind]
  have hmx2 : ∀ l, (updList s1 (mr - 1) l).max_rank = mr := fun _ => hmx
  rw [hmx2, getList_eq (k := mr - 1) (by omega) (by omega), some_bind,
    setList_eq (k := mr - 1) _ (by omega) (by omega), some_bind]
  refine ⟨_, mr, rfl, ?_⟩
  refine ⟨hmr1, h3, h4, h5, h6, hmx, g2.2.2.2, g2.1, g2.2.1, g3, ?_, ?_, ?_, ?_, ?_⟩
  · intro k hk
    have : k ≠ mr - 1 := by omega
    simp [updList, this, g4 k (by omega) (by omega)]
  · simp [updList]
  · intro k hk
    have : k ≠ mr - 1 := by omega
    simp [updList, this, g5 k (Or.inr hk)]
  · intro l j hl hlj
    have := g6 l j (by omega) hlj
    simp only [updList]
    rw [this]
    congr 1
    simp only [pow_add]
    ring
  · intro j hj
    simp only [updList]
    exact g7 j (by simpa using hj)

/-! ## Levels of the tree -/

theorem AtLevel.unique {l l' j : Nat} (h : AtLevel l j) (h' : AtLevel l' j) : l = l' := by
  unfold AtLevel at h h'
  by_contra hne
  rcases Nat.lt_or_gt_of_ne hne with hlt | hlt
  · have : 2 ^ (l + 1) ≤ 2 ^ l' := Nat.pow_le_pow_right (by norm_num) hlt
    omega
  · have : 2 ^ (l' + 1) ≤ 2 ^ l := Nat.pow_le_pow_right (by norm_num) hlt
    omega

theorem AtLevel.pos {l j : Nat} (h : AtLevel l j) : 1 ≤ j := by
  have : 0 < 2 ^ l := Nat.two_pow_pos l
  unfold AtLevel at h
  omega

theorem AtLevel.lt_pow {l j mr : Nat} (h : AtLevel l j) (hl : l < mr) : j < 2 ^ mr := by
  have : 2 ^ (l + 1) ≤ 2 ^ mr := Nat.pow_le_pow_right (by norm_num) hl
  unfold AtLevel at h
  omega

theorem AtLevel.lt_node_num {l j mr M : Nat} (h : AtLevel l j) (hl : l < mr) (hmr : mr ≤ M) :
    j < NODE_NUM M := by
  have h1 := h.lt_pow hl
  have h2 : 2 ^ mr ≤ NODE_NUM M := pow_le_node_num (by omega) hmr
  omega

theorem AtLevel.left {l j : Nat} (h : AtLevel l j) : AtLevel (l + 1) (2 * j) := by
  unfold AtLevel at *
  rw [pow_succ, pow_succ]
  rw [pow_succ] at h
  omega

theorem AtLevel.right {l j : Nat} (h : AtLevel l j) : AtLevel (l + 1) (2 * j + 1) := by
  unfold AtLevel at *
  rw [pow_succ, pow_succ]
  rw [pow_succ] at h
  omega

theorem AtLevel.parent {l j : Nat} (h : AtLevel (l + 1) j) : AtLevel l (j / 2) := by
  unfold AtLevel at *
  rw [pow_succ, pow_succ] at h
  rw [pow_succ]
  omega

theorem xor_one_eq (j : Nat) : j ^^^ 1 = if j % 2 = 0 then j + 1 else j - 1 := by
  rcases Nat.even_or_odd' j with ⟨k, rfl | rfl⟩
  · rw [xor_one_even, if_pos (by omega)]
  · rw [xor_one_odd, if_neg (by omega)]
    omega

theorem AtLevel.buddy {l j : Nat} (h : AtLevel (l + 1) j) : AtLevel (l + 1) (j ^^^ 1) := by
  rw [xor_one_eq]
  unfold AtLevel at *
  rw [pow_succ, pow_succ] at h
  rw [pow_succ, pow_succ]
  split <;> omega

theorem AtLevel.root : AtLevel 0 1 := by
  unfold AtLevel
  norm_num

/-! ## The invariant under single writes -/

theorem Inv.write_node {M : Nat} {base : Int} {mr : Nat} {s : State} (h : Inv M base mr s)
    (j : Nat) (nd : tree_node) (hp : nd.p = (s.node j).p)
    (hnext : ∀ l j' : Nat, l < mr → AtLevel l j → nd.next = some j' → AtLevel l j')
    (hprev : ∀ l j' : Nat, l < mr → AtLevel l j → nd.prev = some j' → AtLevel l j') :
    Inv M base mr (updNode s j nd) where
  mr_pos := h.mr_pos
  mr_le := h.mr_le
  mr_small := h.mr_small
  max_rank_eq := h.max_rank_eq
  max_page_num_eq := h.max_page_num_eq
  mem_start_eq := h.mem_start_eq
  addr := by
    intro l k hl hk
    simp only [updNode]
    split
    · next hkj => subst hkj; rw [hp]; exact h.addr l k hl hk
    · exact h.addr l k hl hk
  head := h.head
  above := h.above
  next := by
    intro l k k' hl hk
    simp only [updNode]
    split
    · next hkj => subst hkj; exact hnext l k' hl hk
    · exact h.next l k k' hl hk
  prev := by
    intro l k k' hl hk
    simp only [updNode]
    split
    · next hkj => subst hkj; exact hprev l k' hl hk
    · exact h.prev l k k' hl hk
  rank := h.rank

theorem Inv.write_list {M : Nat} {base : Int} {mr : Nat} {s : State} (h : Inv M base mr s)
    (i : Nat) (l : node_list)
    (hhead : ∀ j : Nat, l.head = some j → i < mr ∧ AtLevel (mr - 1 - i) j) :
    Inv M base mr (updList s i l) where
  mr_pos := h.mr_pos
  mr_le := h.mr_le
  mr_small := h.mr_small
  max_rank_eq := h.max_rank_eq
  max_page_num_eq := h.max_page_num_eq
  mem_start_eq := h.mem_start_eq
  addr := h.addr
  head := by
    intro k j hk
    simp only [updList]
    split
    · next hki => subst hki; exact fun hj => (hhead j hj).2
    · exact h.head k j hk
  above := by
    intro k hk
    simp only [updList]
    split
    · next hki =>
      subst hki
      cases hl : l.head with
      | none => rfl
      | some j => have := (hhead j hl).1; omega
    · exact h.above k hk
  next := h.next
  prev := h.prev
  rank := h.rank

theorem Inv.write_rank {M : Nat} {base : Int} {mr : Nat} {s : State} (h : Inv M base mr s)
    (k : Nat) (r : Int) (hr : -1 ≤ r ∧ r ≤ mr) : Inv M base mr (updRank s k r) where
  mr_pos := h.mr_pos
  mr_le := h.mr_le
  mr_small := h.mr_small
  max_rank_eq := h.max_rank_eq
  max_page_num_eq := h.max_page_num_eq
  mem_start_eq := h.mem_start_eq
  addr := h.addr
  head := h.head
  above := h.above
  next := h.next
  prev := h.prev
  rank := by
    intro k' hk'
    simp only [updRank]
    split
    · exact hr
    · exact h.rank k' hk'

theorem Inv.setFlag {M : Nat} {base : Int} {mr : Nat} {s : State} (h : Inv M base mr s)
    (j : Nat) (v : Int) : Inv M base mr (updNode s j { s.node j with is_allocated := v }) :=
  h.write_node j _ rfl (fun l j' hl hj => h.next l j j' hl hj) (fun l j' hl hj => h.prev l j j' hl hj)

theorem Inv.setNext {M : Nat} {base : Int} {mr : Nat} {s : State} (h : Inv M base mr s)
    {l : Nat} {j : Nat} (hj : AtLevel l j) (x : Option Nat)
    (hx : ∀ j' : Nat, x = some j' → AtLevel l j') :
    Inv M base mr (updNode s j { s.node j with next := x }) :=
  h.write_node j _ rfl (fun l' j' _ hj' hx' => by rw [← hj.unique hj']; exact hx j' hx')
    (fun l' j' hl hj' => h.prev l' j j' hl hj')

theorem Inv.setPrev {M : Nat} {base : Int} {mr : Nat} {s : State} (h : Inv M base mr s)
    {l : Nat} {j : Nat} (hj : AtLevel l j) (x : Option Nat)
    (hx : ∀ j' : Nat, x = some j' → AtLevel l j') :
    Inv M base mr (updNode s j { s.node j with prev := x }) :=
  h.write_node j _ rfl (fun l' j' hl hj' => h.next l' j j' hl hj')
    (fun l' j' _ hj' hx' => by rw [← hj.unique hj']; exact hx j' hx')

theorem Inv.setHead {M : Nat} {base : Int} {mr : Nat} {s : State} (h : Inv M base mr s)
    {i : Nat} (hi : i < mr) (x : Option Nat)
    (hx : ∀ j : Nat, x = some j → AtLevel (mr - 1 - i) j) :
    Inv M base mr (updList s i { s.free_list i with head := x }) :=
  h.write_list i _ (fun j hj => ⟨hi, hx j hj⟩)

theorem Inv.setSize {M : Nat} {base : Int} {mr : Nat} {s : State} (h : Inv M base mr s)
    {i : Nat} (hi : i < mr) (v : Nat) :
    Inv M base mr (updList s i { s.free_list i with size := v }) :=
  h.write_list i _ (fun j hj => ⟨hi, h.head i j hi hj⟩)

/-! ## `alloc_pages` keeps the invariant -/

theorem bind_spec {α β : Type} {x : Option α} {f : α → Option β} {Q : α → Prop}
    {P : β → Prop} (hx : ∃ a, x = some a ∧ Q a) (hf : ∀ a, Q a → ∃ b, f a = some b ∧ P b) :
    ∃ b, (x >>= f) = some b ∧ P b := by
  obtain ⟨a, rfl, hq⟩ := hx
  exact hf a hq

theorem alloc_unlink_spec {M : Nat} {base : Int} {mr : Nat} {s : State}
    (hI : Inv M base mr s) (i n : Nat) (hi1 : 1 ≤ i) (hi : i ≤ mr)
    (hn : AtLevel (mr - i) n) :
    ∃ s', alloc_unlink M s i n = some s' ∧ Inv M base mr s' ∧
      s'.rank_of_page = s.rank_of_page := by
  have hM := hI.mr_le
  have hl : mr - i < mr := by omega
  have hnb : n < NODE_NUM M := hn.lt_node_num hl hM
  have hlev : mr - 1 - (i - 1) = mr - i := by omega
  unfold alloc_unlink
  rw [getNode_eq hnb, some_bind]
  refine bind_spec (Q := fun s1 => Inv M base mr s1 ∧ s1.rank_of_page = s.rank_of_page) ?_ ?_
  · cases hnx : (s.node n).next with
    | none => exact ⟨s, rfl, hI, rfl⟩
    | some nx =>
      have hx : AtLevel (mr - i) nx := hI.next _ n nx hl hn hnx
      simp only []
      rw [getNode_eq (hx.lt_node_num hl hM), some_bind, setNode_eq _ (hx.lt_node_num hl hM)]
      exact ⟨_, rfl, hI.setPrev hx none (by simp), rfl⟩
  · rintro s1 ⟨I1, r1⟩
    rw [getNode_eq hnb, some_bind, getList_eq (k := i - 1) (by omega) (by omega), some_bind,
      setList_eq (k := i - 1) _ (by omega) (by omega), some_bind]
    have I2 := I1.setHead (i := i - 1) (by omega) (s1.node n).next (by
      intro j hj
      rw [hlev]
      exact I1.next _ n j hl hn hj)
    have r2 : (updList s1 (i - 1) { s1.free_list (i - 1) with head := (s1.node n).next }).rank_of_page
        = s.rank_of_page := r1
    generalize updList s1 (i - 1) { s1.free_list (i - 1) with head := (s1.node n).next } = s2
      at I2 r2 ⊢
    rw [getList_eq (k := i - 1) (by omega) (by omega), some_bind,
      setList_eq (k := i - 1) _ (by omega) (by omega), some_bind, getNode_eq hnb, some_bind,
      setNode_eq _ hnb]
    exact ⟨_, rfl, (I2.setSize (by omega) _).setNext hn none (by simp), r2⟩

theorem alloc_split_spec {M : Nat} {base : Int} {mr : Nat} (r : Nat) (hr : 1 ≤ r) :
    ∀ (fuel : Nat) (s : State) (i n : Nat), Inv M base mr s → r ≤ i → i ≤ mr →
      AtLevel (mr - i) n → i - r < fuel →
      ∃ res, alloc_split M r fuel s i n = some res ∧ Inv M base mr res.1 ∧
        AtLevel (mr - r) res.2 ∧ res.2 = n * 2 ^ (i - r) ∧
        res.1.rank_of_page = s.rank_of_page := by
  intro fuel
  induction fuel with
  | zero => intro s i n _ _ _ _ hf; omega
  | succ fuel ih =>
    intro s i n hI hri hi hn hf
    have hM := hI.mr_le
    unfold alloc_split
    by_cases hgt : r < i
    · have hc : (i : Int) > (r : Int) := by omega
      have hl : mr - i < mr := by omega
      have hnb : n < NODE_NUM M := hn.lt_node_num hl hM
      have hn19 : n < 2 ^ 19 := by
        have h1 := hn.lt_pow hl
        have h2 : 2 ^ mr ≤ 2 ^ 19 := Nat.pow_le_pow_right (by norm_num) hI.mr_small
        omega
      have hlev : mr - i + 1 = mr - (i - 1) := by omega
      have hL : AtLevel (mr - (i - 1)) (2 * n) := hlev ▸ hn.left
      have hR : AtLevel (mr - (i - 1)) (2 * n + 1) := hlev ▸ hn.right
      have hl' : mr - (i - 1) < mr := by omega
      rw [if_pos hc, getNode_eq hnb, some_bind, setNode_eq _ hnb, some_bind]
      have I1 := hI.setFlag n 1
      have r1 : (updNode s n { s.node n with is_allocated := 1 }).rank_of_page
          = s.rank_of_page := rfl
      generalize updNode s n { s.node n with is_allocated := 1 } = s1 at I1 r1 ⊢
      simp only []
      rw [shl_by_one (n := n) rfl (by norm_num; omega), some_bind]
      simp only [Int.toNat_ofNat, lor_one, Int.ofNat_eq_coe]
      rw [index_eq (n := 2 * n + 1) rfl (hR.lt_node_num hl' hM), some_bind,
        getList_eq (k := i - 2) (by omega) (by omega), some_bind,
        setList_eq (k := i - 2) _ (by omega) (by omega), some_bind]
      have I2 := I1.setHead (i := i - 2) (by omega) (some (2 * n + 1)) (by
        intro j hj
        have : mr - 1 - (i - 2) = mr - (i - 1) := by omega
        rw [this]
        cases hj
        exact hR)
      have r2 : (updList s1 (i - 2) { s1.free_list (i - 2) with head := some (2 * n + 1) }).rank_of_page
          = s.rank_of_page := r1
      generalize updList s1 (i - 2) { s1.free_list (i - 2) with head := some (2 * n + 1) } = s2
        at I2 r2 ⊢
      rw [getList_eq (k := i - 2) (by omega) (by omega), some_bind,
        setList_eq (k := i - 2) _ (by omega) (by omega), some_bind]
      have I3 := I2.setSize (i := i - 2) (by omega) 1
      have r3 : (updList s2 (i - 2) { s2.free_list (i - 2) with size := 1 }).rank_of_page
          = s.rank_of_page := r2
      generalize updList s2 (i - 2) { s2.free_list (i - 2) with size := 1 } = s3 at I3 r3 ⊢
      rw [index_eq (n := 2 * n) rfl (hL.lt_node_num hl' hM), some_bind]
      have hi' : (i : Int) - 1 = ((i - 1 : Nat) : Int) := by omega
      rw [hi']
      obtain ⟨res, e, I4, h4, h5, r4⟩ := ih s3 (i - 1) (2 * n) I3 (by omega) (by omega) hL
        (by omega)
      refine ⟨res, e, I4, h4, ?_, r4.trans r3⟩
      rw [h5]
      have : i - r = (i - 1 - r) + 1 := by omega
      rw [this, pow_succ]
      ring
    · have hc : ¬ (i : Int) > (r : Int) := by omega
      have hir : i = r := by omega
      subst hir
      rw [if_neg hc]
      exact ⟨(s, n), rfl, hI, hn, by simp, rfl⟩

theorem alloc_search_spec {M : Nat} {mr : Nat} {s : State} (hmr : s.max_rank = mr)
    (hM : mr ≤ M) :
    ∀ (fuel i : Nat), mr - i < fuel →
      ∃ found, alloc_search M s fuel i = some found ∧
        ((found = none ∧ ∀ k : Nat, i < k → k ≤ mr → (s.free_list (k - 1)).head = none) ∨
         (∃ k n : Nat, found = some ((k : Int), n) ∧ i < k ∧ k ≤ mr ∧
            (s.free_list (k - 1)).head = some n ∧
            ∀ k' : Nat, i < k' → k' < k → (s.free_list (k' - 1)).head = none)) := by
  intro fuel
  induction fuel with
  | zero => intro i hf; omega
  | succ fuel ih =>
    intro i hf
    unfold alloc_search
    simp only []
    by_cases hgt : mr < i + 1
    · have hc : (i : Int) + 1 > s.max_rank := by omega
      rw [if_pos hc]
      exact ⟨none, rfl, Or.inl ⟨rfl, fun k h1 h2 => by omega⟩⟩
    · have hc : ¬ (i : Int) + 1 > s.max_rank := by omega
      rw [if_neg hc, getList_eq (k := i) (by omega) (by omega), some_bind]
      cases hh : (s.free_list i).head with
      | none =>
        simp only []
        have hi' : (i : Int) + 1 = ((i + 1 : Nat) : Int) := by omega
        rw [hi']
        obtain ⟨found, e, h⟩ := ih (i + 1) (by omega)
        refine ⟨found, e, ?_⟩
        rcases h with ⟨h1, h2⟩ | ⟨k, n, h1, h2, h3, h4, h5⟩
        · left
          refine ⟨h1, fun k hk1 hk2 => ?_⟩
          by_cases hk : k = i + 1
          · subst hk; exact hh
          · exact h2 k (by omega) hk2
        · right
          refine ⟨k, n, h1, by omega, h3, h4, fun k' hk1 hk2 => ?_⟩
          by_cases hk : k' = i + 1
          · subst hk; exact hh
          · exact h5 k' (by omega) hk2
      | some n =>
        simp only []
        refine ⟨_, rfl, Or.inr ⟨i + 1, n, ?_, by omega, by omega, hh, fun k' h1 h2 => by omega⟩⟩
        simp

theorem node_page_cast {mr l j : Nat} (h : AtLevel l j) :
    ((j : Int) - 2 ^ l) * 2 ^ (mr - 1 - l) = (node_page mr l j : Int) := by
  unfold node_page
  have := h.1
  push_cast [Nat.cast_sub this]
  ring

theorem node_page_bound {mr l j : Nat} (hl : l < mr) (h : AtLevel l j) :
    node_page mr l j + 2 ^ (mr - 1 - l) ≤ 2 ^ (mr - 1) := by
  unfold node_page
  have h1 : 2 ^ (mr - 1) = 2 ^ l * 2 ^ (mr - 1 - l) := by
    rw [← pow_add]
    congr 1
    omega
  have h2 : (j - 2 ^ l) * 2 ^ (mr - 1 - l) + 2 ^ (mr - 1 - l)
      = (j - 2 ^ l + 1) * 2 ^ (mr - 1 - l) := by ring
  rw [h1, h2]
  apply Nat.mul_le_mul_right
  unfold AtLevel at h
  rw [pow_succ] at h
  omega

theorem node_page_lt {mr l j : Nat} (hl : l < mr) (h : AtLevel l j) :
    node_page mr l j < 2 ^ (mr - 1) := by
  have := node_page_bound hl h
  have : 0 < 2 ^ (mr - 1 - l) := Nat.two_pow_pos _
  omega

theorem Inv.node_p {M : Nat} {base : Int} {mr : Nat} {s : State} (h : Inv M base mr s)
    {l j : Nat} (hl : l < mr) (hj : AtLevel l j) :
    (s.node j).p = base + 4096 * (node_page mr l j : Int) := by
  rw [h.addr l j hl hj, node_page_cast hj]

theorem max_page_num_le {mr M : Nat} (h : mr ≤ M) : 2 ^ (mr - 1) ≤ MAX_PAGE_NUM M := by
  unfold MAX_PAGE_NUM
  exact Nat.pow_le_pow_right (by norm_num) (by omega)

theorem alloc_pages_spec {M : Nat} {base : Int} {mr : Nat} {s : State}
    (hI : Inv M base mr s) (r : Nat) (hr1 : 1 ≤ r) (hrM : r ≤ M) :
    ∃ res, alloc_pages M s r = some res ∧
      ((res = (.error .ENOSPC, s) ∧
          ∀ k : Nat, r ≤ k → k ≤ mr → (s.free_list (k - 1)).head = none) ∨
       (∃ k n : Nat, r ≤ k ∧ k ≤ mr ∧ (s.free_list (k - 1)).head = some n ∧
          (∀ k' : Nat, r ≤ k' → k' < k → (s.free_list (k' - 1)).head = none) ∧
          AtLevel (mr - r) (n * 2 ^ (k - r)) ∧
          res.1 = .ok (base + 4096 * (node_page mr (mr - r) (n * 2 ^ (k - r)) : Int)) ∧
          Inv M base mr res.2 ∧
          res.2.rank_of_page (node_page mr (mr - r) (n * 2 ^ (k - r))) = r ∧
          ∀ j : Nat, j ≠ node_page mr (mr - r) (n * 2 ^ (k - r)) →
            res.2.rank_of_page j = s.rank_of_page j)) := by
  have hM := hI.mr_le
  unfold alloc_pages
  simp only []
  rw [getList_eq (k := r - 1) (by omega) (by omega), some_bind]
  refine bind_spec (Q := fun found =>
      (found = none ∧ ∀ k : Nat, r ≤ k → k ≤ mr → (s.free_list (k - 1)).head = none) ∨
      (∃ k n : Nat, found = some ((k : Int), n) ∧ r ≤ k ∧ k ≤ mr ∧
        (s.free_list (k - 1)).head = some n ∧
        ∀ k' : Nat, r ≤ k' → k' < k → (s.free_list (k' - 1)).head = none)) ?_ ?_
  · cases hh : (s.free_list (r - 1)).head with
    | some n =>
      have hrmr : r ≤ mr := by
        by_contra hc
        have := hI.above (r - 1) (by omega)
        rw [hh] at this
        cases this
      exact ⟨_, rfl, Or.inr ⟨r, n, rfl, le_refl _, hrmr, hh, fun k' h1 h2 => by omega⟩⟩
    | none =>
      simp only []
      obtain ⟨found, e, h⟩ := alloc_search_spec hI.max_rank_eq hM
        ((s.max_rank - (r : Int)).toNat + 1) r (by rw [hI.max_rank_eq]; omega)
      refine ⟨found, e, ?_⟩
      rcases h with ⟨h1, h2⟩ | ⟨k, n, h1, h2, h3, h4, h5⟩
      · left
        refine ⟨h1, fun k hk1 hk2 => ?_⟩
        by_cases hk : k = r
        · subst hk; exact hh
        · exact h2 k (by omega) hk2
      · right
        refine ⟨k, n, h1, by omega, h3, h4, fun k' hk1 hk2 => ?_⟩
        by_cases hk : k' = r
        · subst hk; exact hh
        · exact h5 k' (by omega) hk2
  · rintro found (⟨rfl, hall⟩ | ⟨k, n, rfl, hrk, hk, hh, hmin⟩)
    · exact ⟨_, rfl, Or.inl ⟨rfl, hall⟩⟩
    · simp only []
      have hn : AtLevel (mr - k) n := by
        have := hI.head (k - 1) n (by omega) hh
        have e : mr - 1 - (k - 1) = mr - k := by omega
        rwa [e] at this
      obtain ⟨s1, e1, I1, r1⟩ := alloc_unlink_spec hI k n (by omega) hk hn
      rw [e1, some_bind]
      obtain ⟨⟨s2, n'⟩, e2, I2, hn', hn'eq, r2⟩ := alloc_split_spec r hr1
        ((((k : Int) - (r : Int)).toNat) + 1) s1 k n I1 hrk hk hn (by omega)
      rw [e2, some_bind]
      simp only [] at I2 hn' hn'eq r2 ⊢
      have hl : mr - r < mr := by omega
      have hnb : n' < NODE_NUM M := hn'.lt_node_num hl hM
      rw [getNode_eq hnb, some_bind, setNode_eq _ hnb, some_bind]
      have I3 := I2.setFlag n' 1
      have r3 : (updNode s2 n' { s2.node n' with is_allocated := 1 }).rank_of_page
          = s.rank_of_page := r2.trans r1
      generalize updNode s2 n' { s2.node n' with is_allocated := 1 } = s3 at I3 r3 ⊢
      have hp : page_of s3 (s3.node n').p = (node_page mr (mr - r) n' : Int) := by
        unfold page_of
        rw [I3.node_p hl hn', I3.mem_start_eq]
        omega
      have hlt := node_page_lt hl hn'
      have hlt' : node_page mr (mr - r) n' < MAX_PAGE_NUM M := by
        have := max_page_num_le hM
        omega
      rw [getNode_eq hnb, some_bind, setRank_eq _ hp hlt', some_bind]
      have I4 := I3.write_rank (node_page mr (mr - r) n') r ⟨by omega, by
        have := hI.mr_pos
        omega⟩
      rw [getNode_eq hnb, some_bind]
      subst hn'eq
      refine ⟨_, rfl, Or.inr ⟨k, n, hrk, hk, hh, hmin, hn', ?_, I4, ?_, ?_⟩⟩
      · simp only []
        rw [I4.node_p hl hn']
      · simp [updRank]
      · intro j hj
        simp only [updRank, hj, if_false]
        rw [r3]

/-! ## `return_pages` keeps the invariant -/

theorem shr_eq {a k : Int} {n m : Nat} (ha : a = n) (hk : k = m) (hm : m < 32) :
    shr a k = some ((n / 2 ^ m : Nat) : Int) := by
  subst ha hk
  unfold shr
  rw [if_pos (by omega)]
  simp

theorem AtLevel.of_page {mr r kn : Nat} (hr1 : 1 ≤ r) (hr : r ≤ mr) (hk : kn < 2 ^ (mr - 1)) :
    AtLevel (mr - r) ((2 ^ (mr - 1) + kn) / 2 ^ (r - 1)) := by
  have h1 : 2 ^ (mr - 1) = 2 ^ (mr - r) * 2 ^ (r - 1) := by
    rw [← pow_add]
    congr 1
    omega
  have hpos : 0 < 2 ^ (r - 1) := Nat.two_pow_pos _
  constructor
  · rw [Nat.le_div_iff_mul_le hpos, ← h1]
    omega
  · rw [Nat.div_lt_iff_lt_mul hpos, pow_succ, mul_assoc, mul_comm 2, ← mul_assoc, ← h1]
    omega

theorem return_unlink_spec {M : Nat} {base : Int} {mr : Nat} {s : State}
    (hI : Inv M base mr s) (r b : Nat) (hr1 : 1 ≤ r) (hr : r ≤ mr)
    (hb : AtLevel (mr - r) b) :
    ∃ s', return_unlink M s r b = some s' ∧ Inv M base mr s' ∧
      s'.rank_of_page = s.rank_of_page := by
  have hM := hI.mr_le
  have hl : mr - r < mr := by omega
  have hbb : b < NODE_NUM M := hb.lt_node_num hl hM
  have hlev : mr - 1 - (r - 1) = mr - r := by omega
  unfold return_unlink
  rw [getNode_eq hbb, some_bind]
  refine bind_spec (Q := fun s1 => Inv M base mr s1 ∧ s1.rank_of_page = s.rank_of_page) ?_ ?_
  · cases hpv : (s.node b).prev with
    | some pv =>
      have hx : AtLevel (mr - r) pv := hI.prev _ b pv hl hb hpv
      simp only []
      rw [getNode_eq (hx.lt_node_num hl hM), some_bind, some_bind,
        setNode_eq _ (hx.lt_node_num hl hM)]
      exact ⟨_, rfl, hI.setNext hx _ (fun j hj => hI.next _ b j hl hb hj), rfl⟩
    | none =>
      simp only []
      rw [getList_eq (k := r - 1) (by omega) (by omega), some_bind,
        setList_eq (k := r - 1) _ (by omega) (by omega)]
      exact ⟨_, rfl, hI.setHead (by omega) _ (fun j hj => by
        rw [hlev]; exact hI.next _ b j hl hb hj), rfl⟩
  · rintro s1 ⟨I1, r1⟩
    rw [getNode_eq hbb, some_bind]
    refine bind_spec (Q := fun s2 => Inv M base mr s2 ∧ s2.rank_of_page = s.rank_of_page) ?_ ?_
    · cases hnx : (s1.node b).next with
      | some nx =>
        have hx : AtLevel (mr - r) nx := I1.next _ b nx hl hb hnx
        simp only []
        rw [getNode_eq (hx.lt_node_num hl hM), some_bind, some_bind,
          setNode_eq _ (hx.lt_node_num hl hM)]
        exact ⟨_, rfl, I1.setPrev hx _ (fun j hj => I1.prev _ b j hl hb hj), r1⟩
      | none => exact ⟨s1, rfl, I1, r1⟩
    · rintro s2 ⟨I2, r2⟩
      rw [getList_eq (k := r - 1) (by omega) (by omega), some_bind,
        setList_eq (k := r - 1) _ (by omega) (by omega)]
      exact ⟨_, rfl, I2.setSize (by omega) _, r2⟩

theorem return_merge_spec {M : Nat} {base : Int} {mr : Nat} :
    ∀ (fuel : Nat) (s : State) (r ni : Nat), Inv M base mr s → 1 ≤ r → r ≤ mr →
      AtLevel (mr - r) ni → mr - r < fuel →
      ∃ res, return_merge M fuel s r ni = some res ∧ Inv M base mr res.1 ∧
        res.1.rank_of_page = s.rank_of_page ∧
        ∃ r' ni' : Nat, res.2 = ((r' : Int), (ni' : Int)) ∧ r ≤ r' ∧ r' ≤ mr ∧
          AtLevel (mr - r') ni' := by
  intro fuel
  induction fuel with
  | zero => intro s r ni _ _ _ _ hf; omega
  | succ fuel ih =>
    intro s r ni hI hr1 hr hn hf
    have hM := hI.mr_le
    unfold return_merge
    by_cases hlt : r < mr
    · have hc : (r : Int) < s.max_rank := by rw [hI.max_rank_eq]; omega
      have hl : mr - r < mr := by omega
      have hnb : ni < NODE_NUM M := hn.lt_node_num hl hM
      have hlev : mr - r = (mr - (r + 1)) + 1 := by omega
      have hB : AtLevel (mr - r) (ni ^^^ 1) := by
        rw [hlev] at hn ⊢
        exact hn.buddy
      have hP : AtLevel (mr - (r + 1)) (ni / 2) := by
        rw [hlev] at hn
        exact hn.parent
      rw [if_pos hc, index_eq rfl hnb, some_bind, getNode_eq hnb, some_bind,
        setNode_eq _ hnb, some_bind]
      have I1 := hI.setFlag ni 0
      have r1 : (updNode s ni { s.node ni with is_allocated := 0 }).rank_of_page
          = s.rank_of_page := rfl
      generalize updNode s ni { s.node ni with is_allocated := 0 } = s1 at I1 r1 ⊢
      simp only [Int.ofNat_eq_coe]
      rw [index_eq rfl (hB.lt_node_num hl hM), some_bind,
        getNode_eq (hB.lt_node_num hl hM), some_bind]
      by_cases hal : (s1.node (ni ^^^ 1)).is_allocated ≠ 0
      · rw [if_pos hal]
        exact ⟨_, rfl, I1, r1, r, ni, rfl, le_refl _, hr, hn⟩
      · rw [if_neg hal]
        obtain ⟨s2, e2, I2, r2⟩ := return_unlink_spec I1 r (ni ^^^ 1) hr1 hr hB
        rw [e2, some_bind, shr_eq (k := 1) (n := ni) (m := 1) rfl (by norm_num) (by norm_num), some_bind]
        have hr' : (r : Int) + 1 = ((r + 1 : Nat) : Int) := by omega
        rw [hr', pow_one]
        obtain ⟨res, e, I3, r3, r', ni', h1, h2, h3, h4⟩ := ih s2 (r + 1) (ni / 2) I2
          (by omega) (by omega) hP (by omega)
        exact ⟨res, e, I3, r3.trans (r2.trans r1), r', ni', h1, by omega, h3, h4⟩
    · have hc : ¬ (r : Int) < s.max_rank := by rw [hI.max_rank_eq]; omega
      rw [if_neg hc]
      exact ⟨_, rfl, hI, rfl, r, ni, rfl, le_refl _, hr, hn⟩

theorem return_push_spec {M : Nat} {base : Int} {mr : Nat} {s : State}
    (hI : Inv M base mr s) (r ni : Nat) (hr1 : 1 ≤ r) (hr : r ≤ mr)
    (hn : AtLevel (mr - r) ni) :
    ∃ s', return_push M s r ni = some s' ∧ Inv M base mr s' ∧
      s'.rank_of_page = s.rank_of_page := by
  have hM := hI.mr_le
  have hl : mr - r < mr := by omega
  have hnb : ni < NODE_NUM M := hn.lt_node_num hl hM
  have hlev : mr - 1 - (r - 1) = mr - r := by omega
  unfold return_push
  rw [getList_eq (k := r - 1) (by omega) (by omega), some_bind, index_eq rfl hnb, some_bind,
    getNode_eq hnb, some_bind, setNode_eq _ hnb, some_bind]
  have I1 := hI.setNext hn (s.free_list (r - 1)).head (fun j hj => by
    have := hI.head (r - 1) j (by omega) hj
    rwa [hlev] at this)
  have r1 : (updNode s ni { s.node ni with next := (s.free_list (r - 1)).head }).rank_of_page
      = s.rank_of_page := rfl
  generalize updNode s ni { s.node ni with next := (s.free_list (r - 1)).head } = s1
    at I1 r1 ⊢
  rw [getList_eq (k := r - 1) (by omega) (by omega), some_bind]
  refine bind_spec (Q := fun s2 => Inv M base mr s2 ∧ s2.rank_of_page = s.rank_of_page) ?_ ?_
  · cases hh : (s1.free_list (r - 1)).head with
    | some h =>
      have hx : AtLevel (mr - r) h := by
        have := I1.head (r - 1) h (by omega) hh
        rwa [hlev] at this
      simp only []
      rw [getNode_eq (hx.lt_node_num hl hM), some_bind, setNode_eq _ (hx.lt_node_num hl hM)]
      exact ⟨_, rfl, I1.setPrev hx _ (fun j hj => by cases hj; exact hn), r1⟩
    | none => exact ⟨s1, rfl, I1, r1⟩
  · rintro s2 ⟨I2, r2⟩
    rw [getList_eq (k := r - 1) (by omega) (by omega), some_bind,
      setList_eq (k := r - 1) _ (by omega) (by omega), some_bind]
    have I3 := I2.setHead (i := r - 1) (by omega) (some ni) (fun j hj => by
      cases hj; rw [hlev]; exact hn)
    have r3 : (updList s2 (r - 1) { s2.free_list (r - 1) with head := some ni }).rank_of_page
        = s.rank_of_page := r2
    generalize updList s2 (r - 1) { s2.free_list (r - 1) with head := some ni } = s3
      at I3 r3 ⊢
    rw [getList_eq (k := r - 1) (by omega) (by omega), some_bind,
      setList_eq (k := r - 1) _ (by omega) (by omega)]
    exact ⟨_, rfl, I3.setSize (by omega) _, r3⟩

theorem return_pages_range {M : Nat} {s : State} {p : Int}
    (h : wrap32 (page_of s p) < 0 ∨ wrap32 (page_of s p) ≥ s.max_page_num) :
    return_pages M s p = some (.error .EINVAL, s) := by
  unfold return_pages
  simp only []
  rw [if_pos h]

theorem return_pages_free {M : Nat} {base : Int} {mr : Nat} {s : State}
    (hI : Inv M base mr s) {p : Int} {kn : Nat} (hk : wrap32 (page_of s p) = kn)
    (hkn : kn < 2 ^ (mr - 1)) (hrank : s.rank_of_page kn = -1) :
    return_pages M s p = some (.error .EINVAL, s) := by
  have hmp := hI.max_page_num_eq
  have hle := max_page_num_le hI.mr_le
  unfold return_pages
  simp only []
  rw [hk, if_neg (by omega), getRank_eq rfl (by omega), some_bind, if_pos hrank]

theorem return_pages_zero {M : Nat} {base : Int} {mr : Nat} {s : State}
    (hI : Inv M base mr s) {p : Int} {kn : Nat} (hk : wrap32 (page_of s p) = kn)
    (hkn : kn < 2 ^ (mr - 1)) (hrank : s.rank_of_page kn = 0) :
    return_pages M s p = none := by
  have hmp := hI.max_page_num_eq
  have hle := max_page_num_le hI.mr_le
  unfold return_pages
  simp only []
  rw [hk, if_neg (by omega), getRank_eq rfl (by omega), some_bind, if_neg (by omega),
    setRank_eq _ rfl (by omega), some_bind, hrank]
  rfl

theorem return_pages_ok {M : Nat} {base : Int} {mr : Nat} {s : State}
    (hI : Inv M base mr s) {p : Int} {kn : Nat} (hk : wrap32 (page_of s p) = kn)
    (hkn : kn < 2 ^ (mr - 1)) (hrank : 1 ≤ s.rank_of_page kn) :
    ∃ s', return_pages M s p = some (.ok (), s') ∧ Inv M base mr s' ∧
      s'.rank_of_page kn = -1 ∧ ∀ j : Nat, j ≠ kn → s'.rank_of_page j = s.rank_of_page j := by
  have hmp := hI.max_page_num_eq
  have hle := max_page_num_le hI.mr_le
  have hM := hI.mr_le
  have hrk := hI.rank kn hkn
  obtain ⟨r, hr⟩ : ∃ r : Nat, s.rank_of_page kn = (r : Int) :=
    ⟨(s.rank_of_page kn).toNat, by omega⟩
  have hr1 : 1 ≤ r := by omega
  have hrmr : r ≤ mr := by omega
  have h19 := hI.mr_small
  unfold return_pages
  simp only []
  rw [hk, if_neg (by omega), getRank_eq rfl (by omega), some_bind, if_neg (by omega),
    setRank_eq _ rfl (by omega), some_bind, hr]
  have I1 := hI.write_rank kn (-1) ⟨le_refl _, by omega⟩
  have a1 : (updRank s kn (-1)).rank_of_page kn = -1 := by simp [updRank]
  have b1 : ∀ j : Nat, j ≠ kn → (updRank s kn (-1)).rank_of_page j = s.rank_of_page j := by
    intro j hj
    simp [updRank, hj]
  generalize updRank s kn (-1) = s1 at I1 a1 b1 ⊢
  rw [shr_eq (n := 2 ^ (mr - 1) + kn) (m := r - 1)
    (by rw [I1.max_page_num_eq]; push_cast; ring) (by omega) (by omega), some_bind]
  obtain ⟨⟨s2, rr, nn⟩, e2, I2, r2, r', ni', h1, h2, h3, h4⟩ := return_merge_spec
    ((s1.max_rank - (r : Int)).toNat + 1) s1 r ((2 ^ (mr - 1) + kn) / 2 ^ (r - 1)) I1 hr1 hrmr
    (AtLevel.of_page hr1 hrmr hkn) (by rw [I1.max_rank_eq]; omega)
  rw [e2, some_bind]
  simp only [] at I2 r2 h1 ⊢
  cases h1
  obtain ⟨s3, e3, I3, r3⟩ := return_push_spec I2 r' ni' (by omega) h3 h4
  rw [e3, some_bind]
  refine ⟨s3, rfl, I3, ?_, ?_⟩
  · rw [r3, r2]; exact a1
  · intro j hj
    rw [r3, r2]; exact b1 j hj

theorem return_pages_inv {M : Nat} {base : Int} {mr : Nat} {s : State}
    (hI : Inv M base mr s) {p : Int} {res : Except Errno Unit} {s' : State}
    (h : return_pages M s p = some (res, s')) : Inv M base mr s' := by
  by_cases hrange : wrap32 (page_of s p) < 0 ∨ wrap32 (page_of s p) ≥ s.max_page_num
  · rw [return_pages_range hrange] at h
    cases h
    exact hI
  · have hmp := hI.max_page_num_eq
    obtain ⟨kn, hk⟩ : ∃ kn : Nat, wrap32 (page_of s p) = (kn : Int) :=
      ⟨(wrap32 (page_of s p)).toNat, by omega⟩
    have hkn : kn < 2 ^ (mr - 1) := by omega
    have hrk := hI.rank kn hkn
    by_cases h1 : s.rank_of_page kn = -1
    · rw [return_pages_free hI hk hkn h1] at h
      cases h
      exact hI
    · by_cases h0 : s.rank_of_page kn = 0
      · rw [return_pages_zero hI hk hkn h0] at h
        cases h
      · obtain ⟨s2, e, I2, -⟩ := return_pages_ok hI hk hkn (by omega)
        rw [e] at h
        cases h
        exact I2

theorem alloc_pages_inv {M : Nat} {base : Int} {mr : Nat} {s : State}
    (hI : Inv M base mr s) {rank : Int} {res : Except Errno Int} {s' : State}
    (h : alloc_pages M s rank = some (res, s')) : Inv M base mr s' := by
  by_cases hr : 1 ≤ rank ∧ rank ≤ M
  · obtain ⟨r, rfl⟩ : ∃ r : Nat, rank = (r : Int) := ⟨rank.toNat, by omega⟩
    obtain ⟨res', e, h'⟩ := alloc_pages_spec hI r (by omega) (by omega)
    rw [e] at h
    cases h
    rcases h' with ⟨h1, -⟩ | ⟨k, n, -, -, -, -, -, -, I, -⟩
    · cases h1
      exact hI
    · exact I
  · exfalso
    unfold alloc_pages at h
    simp only [getList] at h
    rw [if_neg (by omega)] at h
    cases h

theorem Fresh.inv {M : Nat} {base pg : Int} {mr : Nat} {s : State}
    (h : Fresh M zero_state base pg mr s) : Inv M base mr s where
  mr_pos := h.mr_pos
  mr_le := h.mr_le
  mr_small := h.mr_small
  max_rank_eq := h.max_rank_eq
  max_page_num_eq := h.max_page_num_eq
  mem_start_eq := h.mem_start_eq
  addr := by
    intro l j hl hj
    rw [h.nodes l j hl hj]
  head := by
    intro i j hi hj
    by_cases hi' : i = mr - 1
    · subst hi'
      rw [h.list_top] at hj
      cases hj
      have : mr - 1 - (mr - 1) = 0 := by omega
      rw [this]
      exact AtLevel.root
    · rw [h.lists_below i (by omega)] at hj
      cases hj
  above := by
    intro i hi
    rw [h.lists_above i hi]
    rfl
  next := by
    intro l j j' hl hj hn
    rw [h.nodes l j hl hj] at hn
    cases hn
  prev := by
    intro l j j' hl hj hn
    rw [h.nodes l j hl hj] at hn
    cases hn
  rank := by
    intro k _
    rw [h.rank_of_page_eq]
    simp [zero_state]

/-! ## When `init_page` is defined -/

theorem bind_inv {α β : Type} {x : Option α} {f : α → Option β} {b : β}
    (h : (x >>= f) = some b) : ∃ a, x = some a ∧ f a = some b := by
  cases x with
  | none => cases h
  | some a => exact ⟨a, rfl, h⟩

theorem shl_some {a k v : Int} (h : shl a k = some v) :
    0 ≤ k ∧ k ≤ 30 ∧ v = a * 2 ^ k.toNat ∨ a = 0 ∧ 0 ≤ k ∧ v = 0 := by
  unfold shl at h
  split at h
  · next hc =>
    cases h
    obtain ⟨h0, h1, h2, h3⟩ := hc
    by_cases ha : a = 0
    · right
      subst ha
      simp [h1]
    · left
      refine ⟨h1, ?_, rfl⟩
      by_contra hk
      have hk31 : k.toNat = 31 := by omega
      rw [hk31] at h3
      have : (1 : Int) ≤ a := by omega
      have : (2 : Int) ^ 31 ≤ a * 2 ^ 31 := by nlinarith
      omega
  · cases h

theorem shl_one_some {k v : Int} (h : shl 1 k = some v) :
    0 ≤ k ∧ k ≤ 30 ∧ v = 2 ^ k.toNat := by
  rcases shl_some h with ⟨h1, h2, h3⟩ | ⟨h1, -, -⟩
  · exact ⟨h1, h2, by simpa using h3⟩
  · omega

theorem init_rank_loop_some (M : Nat) (pg : Int) :
    ∀ (fuel m : Nat) (r : Int), init_rank_loop M pg fuel m = some r →
      ∃ mr : Nat, r = mr ∧ m ≤ mr ∧
        (∀ k : Nat, m ≤ k → k < mr → (2 : Int) ^ k ≤ pg ∧ k < M) ∧
        ¬ ((2 : Int) ^ mr ≤ pg ∧ mr < M) := by
  intro fuel
  induction fuel with
  | zero =>
    intro m r h
    unfold init_rank_loop at h
    cases h
  | succ fuel ih =>
    intro m r h
    unfold init_rank_loop at h
    obtain ⟨v, hv, h⟩ := bind_inv h
    obtain ⟨-, -, hv⟩ := shl_one_some hv
    simp only [Int.toNat_ofNat] at hv
    subst hv
    split at h
    · next hc =>
      have hm1 : (m : Int) + 1 = ((m + 1 : Nat) : Int) := by omega
      rw [hm1] at h
      obtain ⟨mr, h1, h2, h3, h4⟩ := ih (m + 1) r h
      refine ⟨mr, h1, by omega, fun k hk1 hk2 => ?_, h4⟩
      by_cases hkm : k = m
      · subst hkm
        exact ⟨hc.1, by omega⟩
      · exact h3 k (by omega) hk2
    · next hc =>
      cases h
      refine ⟨m, rfl, le_refl _, fun k hk1 hk2 => by omega, ?_⟩
      intro hc'
      exact hc ⟨hc'.1, by omega⟩

theorem init_nodes_max_rank (M : Nat) (incr e : Int) :
    ∀ (fuel : Nat) (s : State) (j p : Int) (s' : State),
      init_nodes M incr e fuel s j p = some s' → s'.max_rank = s.max_rank := by
  intro fuel
  induction fuel with
  | zero =>
    intro s j p s' h
    unfold init_nodes at h
    cases h
  | succ fuel ih =>
    intro s j p s' h
    unfold init_nodes at h
    split at h
    · obtain ⟨jn, -, h⟩ := bind_inv h
      obtain ⟨s1, h1, h⟩ := bind_inv h
      unfold setNode at h1
      split at h1
      · cases h1
        have h2 := ih _ _ _ _ h
        exact h2
      · cases h1
    · cases h
      rfl

theorem init_ranks_some (M : Nat) :
    ∀ (fuel : Nat) (s : State) (i : Nat) (s' : State), init_ranks M fuel s i = some s' →
      ∀ k : Nat, i ≤ k → (k : Int) < s.max_rank → k ≤ 18 := by
  intro fuel
  induction fuel with
  | zero =>
    intro s i s' h
    unfold init_ranks at h
    cases h
  | succ fuel ih =>
    intro s i s' h k hik hk
    unfold init_ranks at h
    split at h
    · obtain ⟨s1, h1, h⟩ := bind_inv h
      obtain ⟨start, -, h⟩ := bind_inv h
      obtain ⟨end_, -, h⟩ := bind_inv h
      obtain ⟨incr, h4, h⟩ := bind_inv h
      obtain ⟨s2, h5, h⟩ := bind_inv h
      have h12 := (shl_one_some h4).2.1
      have hm1 : s1.max_rank = s.max_rank := by
        unfold setList at h1
        split at h1
        · cases h1; rfl
        · cases h1
      have hm2 : s2.max_rank = s.max_rank := by
        rw [init_nodes_max_rank _ _ _ _ _ _ _ _ h5, hm1]
      by_cases hki : k = i
      · omega
      · have hi1 : (i : Int) + 1 = ((i + 1 : Nat) : Int) := by omega
        rw [hi1] at h
        exact ih s2 (i + 1) s' h k (by omega) (by rw [hm2]; exact hk)
    · next hc => omega

theorem init_page_defined {M : Nat} {s0 : State} {base pg : Int}
    {r : Except Errno Unit × State} (h : init_page M s0 base pg = some r) :
    1 ≤ M ∧ 1 ≤ pg ∧ (M ≤ 19 ∨ pg < 2 ^ 19) := by
  unfold init_page at h
  simp only [] at h
  obtain ⟨mr, h1, h⟩ := bind_inv h
  obtain ⟨mpn, h2, h⟩ := bind_inv h
  obtain ⟨s1, h3, h⟩ := bind_inv h
  obtain ⟨n, rfl, -, ha, hb⟩ := init_rank_loop_some M pg (M + 1) 0 mr (by simpa using h1)
  have hn1 : 1 ≤ n := by
    have := (shl_one_some h2).1
    omega
  have h0 := ha 0 (by omega) (by omega)
  refine ⟨by omega, by simpa using h0.1, ?_⟩
  by_contra hc
  have hc' : 20 ≤ M ∧ (2 : Int) ^ 19 ≤ pg := by omega
  have hn20 : 20 ≤ n := by
    by_contra hlt
    apply hb
    refine ⟨?_, by omega⟩
    have : (2 : Int) ^ n ≤ 2 ^ 19 := pow_le_pow_right₀ (by norm_num) (by omega)
    omega
  have := init_ranks_some M _ _ 0 s1 h3 19 (by omega) (by simp only []; omega)
  omega

/-! ## Reachable states -/

theorem step_inv {M : Nat} {base : Int} {mr : Nat} {st st' : State × List Allocation}
    {c : Call} (hI : Inv M base mr st.1) (h : step M st c = some st') :
    Inv M base mr st'.1 := by
  cases c with
  | alloc_pages rank =>
    unfold step at h
    simp only [] at h
    cases ha : alloc_pages M st.1 rank with
    | none => rw [ha] at h; cases h
    | some res =>
      obtain ⟨r, s'⟩ := res
      have I := alloc_pages_inv hI ha
      rw [ha] at h
      cases r <;> (simp only [] at h; cases h; exact I)
  | return_pages p =>
    unfold step at h
    simp only [] at h
    cases ha : return_pages M st.1 p with
    | none => rw [ha] at h; cases h
    | some res =>
      obtain ⟨r, s'⟩ := res
      have I := return_pages_inv hI ha
      rw [ha] at h
      cases r <;> (simp only [] at h; cases h; exact I)

theorem run_inv {M : Nat} {base : Int} {mr : Nat} :
    ∀ (cs : List Call) (st st' : State × List Allocation), Inv M base mr st.1 →
      run M st cs = some st' → Inv M base mr st'.1 := by
  intro cs
  induction cs with
  | nil =>
    intro st st' hI h
    unfold run at h
    cases h
    exact hI
  | cons c cs ih =>
    intro st st' hI h
    unfold run at h
    cases hs : step M st c with
    | none => rw [hs] at h; cases h
    | some st1 =>
      rw [hs] at h
      exact ih st1 st' (step_inv hI hs) h

theorem reachable_inv {M : Nat} {base pg : Int} {s : State} {out : List Allocation}
    (h : Reachable M base pg s out) : ∃ mr : Nat, Inv M base mr s := by
  obtain ⟨cs, h⟩ := h
  have hdef : ∃ r, init_page M zero_state base pg = some r := by
    unfold boot at h
    cases hi : init_page M zero_state base pg with
    | none => rw [hi] at h; cases h
    | some r => exact ⟨r, rfl⟩
  obtain ⟨r, hr⟩ := hdef
  obtain ⟨hM, hpg, hsmall⟩ := init_page_defined hr
  obtain ⟨s0, mr, e, hF⟩ := init_page_spec M zero_state base pg hM hpg hsmall
  unfold boot at h
  rw [e] at h
  exact ⟨mr, run_inv cs (s0, []) (s, out) hF.inv h⟩

set_option maxRecDepth 100000 in
theorem arena16_init : init_page 16 zero_state 65536 16 = some (.ok (), arena16) := by
  rfl

set_option maxRecDepth 100000 in
theorem arena16_reachable : Reachable 16 65536 16 arena16 [] := ⟨[], by rfl⟩

set_option maxRecDepth 100000 in
theorem arena16_alloc : alloc_pages 16 arena16 3 = some (.ok 65536, arena16_alloc3) := by
  rfl

/-! ## Consequences for the interface -/

/-- What a successful `alloc_pages` gives in a state with the invariant. -/
theorem alloc_pages_ok {M : Nat} {base : Int} {mr : Nat} {s s1 : State} {rank p : Int}
    (hI : Inv M base mr s) (ha : alloc_pages M s rank = some (.ok p, s1)) :
    ∃ r j : Nat, rank = r ∧ 1 ≤ r ∧ r ≤ mr ∧ AtLevel (mr - r) j ∧
      p = base + 4096 * (node_page mr (mr - r) j : Int) ∧ Inv M base mr s1 ∧
      s1.rank_of_page (node_page mr (mr - r) j) = r := by
  by_cases hr : 1 ≤ rank ∧ rank ≤ M
  · obtain ⟨r, rfl⟩ : ∃ r : Nat, rank = (r : Int) := ⟨rank.toNat, by omega⟩
    obtain ⟨res', e, h'⟩ := alloc_pages_spec hI r (by omega) (by omega)
    rw [e] at ha
    cases ha
    rcases h' with ⟨h1, -⟩ | ⟨k, n, h1, h2, -, -, h5, h6, h7, h8, -⟩
    · cases h1
    · simp only [] at h6
      cases h6
      exact ⟨r, _, rfl, by omega, by omega, h5, rfl, h7, h8⟩
  · exfalso
    unfold alloc_pages at ha
    simp only [getList] at ha
    rw [if_neg (by omega)] at ha
    cases ha

theorem page_of_node {M : Nat} {base : Int} {mr : Nat} {s : State} (hI : Inv M base mr s)
    {k : Nat} (hk : k < 2 ^ (mr - 1)) :
    wrap32 (page_of s (base + 4096 * (k : Int))) = (k : Int) := by
  have h1 : page_of s (base + 4096 * (k : Int)) = (k : Int) := by
    unfold page_of
    rw [hI.mem_start_eq]
    omega
  rw [h1]
  apply wrap32_of_range
  · have : (0 : Int) ≤ (k : Int) := by omega
    have : -(2 : Int) ^ 31 ≤ 0 := by norm_num
    omega
  · have h2 : 2 ^ (mr - 1) ≤ 2 ^ 19 := Nat.pow_le_pow_right (by norm_num) (by
      have := hI.mr_small
      omega)
    have h3 : ((2 ^ 19 : Nat) : Int) < 2 ^ 31 := by norm_num
    omega

/-- C4: in a reachable state and for `1 ≤ rank ≤ max_rank`, `alloc_pages(rank)` returns
`-ENOSPC` exactly when the heads of the free lists of the ranks `rank .. max_rank` are all
null; otherwise it returns the address stored in a node of the tree. -/
theorem alloc_pages_nospace_iff {M : Nat} {base pgcount : Int} {s : State}
    {out : List Allocation} (hR : Reachable M base pgcount s out)
    {rank : Int} (h1 : 1 ≤ rank) (h2 : rank ≤ s.max_rank) :
    ∃ res s', alloc_pages M s rank = some (res, s') ∧
      (res = .error .ENOSPC ↔
        ∀ k : Nat, rank ≤ k → (k : Int) ≤ s.max_rank → (s.free_list (k - 1)).head = none) ∧
      (res ≠ .error .ENOSPC →
        ∃ j : Nat, 1 ≤ j ∧ (j : Int) < 2 * s.max_page_num ∧ res = .ok (s.node j).p) := by
  obtain ⟨mr, hI⟩ := reachable_inv hR
  have hmr := hI.max_rank_eq
  obtain ⟨r, rfl⟩ : ∃ r : Nat, rank = (r : Int) := ⟨rank.toNat, by omega⟩
  have hrmr : r ≤ mr := by omega
  obtain ⟨⟨res, s'⟩, e, h'⟩ := alloc_pages_spec hI r (by omega) (by have := hI.mr_le; omega)
  refine ⟨res, s', e, ?_⟩
  rcases h' with ⟨h3, h4⟩ | ⟨k, n, h3, h4, h5, -, h7, h8, -⟩
  · cases h3
    refine ⟨⟨fun _ k hk1 hk2 => h4 k (by omega) (by omega), fun _ => rfl⟩, fun h => absurd rfl h⟩
  · simp only [] at h8
    subst h8
    refine ⟨⟨fun h => (by cases h), fun h => ?_⟩, fun _ => ?_⟩
    · have := h k (by omega) (by omega)
      rw [h5] at this
      cases this
    · have hl : mr - r < mr := by omega
      refine ⟨n * 2 ^ (k - r), h7.pos, ?_, ?_⟩
      · have h9 := h7.lt_pow hl
        rw [hI.max_page_num_eq]
        have h10 : 2 ^ mr = 2 * 2 ^ (mr - 1) := by
          rw [← pow_succ']
          congr 1
          have := hI.mr_pos
          omega
        omega
      · rw [hI.node_p hl h7]

/-- C4 at a concrete input: rank 3 on a fresh 16-page arena, where `max_rank` is 5. -/
theorem alloc_pages_nospace_iff_witness :
    Reachable 16 65536 16 arena16 [] ∧ (1 : Int) ≤ 3 ∧ (3 : Int) ≤ arena16.max_rank ∧
    ∃ res s', alloc_pages 16 arena16 3 = some (res, s') ∧
      (res = .error .ENOSPC ↔
        ∀ k : Nat, (3 : Int) ≤ k → (k : Int) ≤ arena16.max_rank →
          (arena16.free_list (k - 1)).head = none) ∧
      (res ≠ .error .ENOSPC →
        ∃ j : Nat, 1 ≤ j ∧ (j : Int) < 2 * arena16.max_page_num ∧
          res = .ok (arena16.node j).p) :=
  ⟨arena16_reachable, by decide, by decide,
    alloc_pages_nospace_iff arena16_reachable (by decide) (by decide)⟩

set_option maxRecDepth 100000 in
/-- C5, counterexample: after `init_page(65536, 16)` and `alloc_pages(1)` on a fresh
program, a second `init_page(65536, 4)` sets `max_rank = 3` and `max_page_num = 4` and
leaves the list of rank 4 as it was, with `node[3]` on it; `alloc_pages(4)` then returns
the address of page 2, which is no multiple of `2 ^ 3` pages and whose block of 8 pages
ends beyond the 4 pages of the arena. -/
theorem alloc_pages_misaligned_after_second_init :
    ((init_page 16 zero_state 65536 16).bind fun r1 =>
      (alloc_pages 16 r1.2 1).bind fun r2 =>
        (init_page 16 r2.2 65536 4).bind fun r3 =>
          (alloc_pages 16 r3.2 4).map fun r4 =>
            (r1.1, r2.1, r3.1, r3.2.max_rank, r3.2.max_page_num,
              (r3.2.free_list 3).head, r4.1))
      = some (.ok (), .ok 65536, .ok (), 3, 4, some 3, .ok (65536 + 2 * 4096)) := by
  rfl

/-- C5, amended: in a state reached from `init_page(base, pgcount)` on a fresh program (the
zero-filled globals) by calls of `alloc_pages` and `return_pages`, an address returned by a
successful `alloc_pages(rank)` is `base + k * 4096` for a page index `k` with
`0 ≤ k < max_page_num`, `k` a multiple of `2 ^ (rank - 1)` and
`k + 2 ^ (rank - 1) ≤ max_page_num`. -/
theorem alloc_pages_aligned {M : Nat} {base pgcount : Int} {s : State}
    {out : List Allocation} (hR : Reachable M base pgcount s out)
    {rank p : Int} {s1 : State} (ha : alloc_pages M s rank = some (.ok p, s1)) :
    ∃ k : Nat, p = base + (k : Int) * 4096 ∧ (k : Int) < s.max_page_num ∧
      2 ^ (rank - 1).toNat ∣ k ∧ ((k + 2 ^ (rank - 1).toNat : Nat) : Int) ≤ s.max_page_num := by
  obtain ⟨mr, hI⟩ := reachable_inv hR
  obtain ⟨r, j, rfl, hr1, hr, hj, rfl, -, -⟩ := alloc_pages_ok hI ha
  have hl : mr - r < mr := by omega
  have hb := node_page_bound hl hj
  have hlt := node_page_lt hl hj
  have e1 : ((r : Int) - 1).toNat = r - 1 := by omega
  have e2 : mr - 1 - (mr - r) = r - 1 := by omega
  rw [e2] at hb
  refine ⟨node_page mr (mr - r) j, by ring, ?_, ?_, ?_⟩
  · rw [hI.max_page_num_eq]; omega
  · rw [e1]
    unfold node_page
    rw [e2]
    exact Dvd.intro_left _ rfl
  · rw [e1, hI.max_page_num_eq]
    omega

/-- C5 at a concrete input: `alloc_pages(3)` on a fresh 16-page arena returns 65536. -/
theorem alloc_pages_aligned_witness :
    Reachable 16 65536 16 arena16 [] ∧
    alloc_pages 16 arena16 3 = some (.ok 65536, arena16_alloc3) ∧
    ∃ k : Nat, (65536 : Int) = 65536 + (k : Int) * 4096 ∧ (k : Int) < arena16.max_page_num ∧
      2 ^ ((3 : Int) - 1).toNat ∣ k ∧
      ((k + 2 ^ ((3 : Int) - 1).toNat : Nat) : Int) ≤ arena16.max_page_num :=
  ⟨arena16_reachable, arena16_alloc,
    alloc_pages_aligned arena16_reachable arena16_alloc⟩

/-- C7: in a reachable state, when `alloc_pages(rank)` succeeds with the address `p`,
`query_ranks(p)` called right afterwards returns `rank`. -/
theorem query_ranks_after_alloc {M : Nat} {base pgcount : Int} {s : State}
    {out : List Allocation} (hR : Reachable M base pgcount s out)
    {rank p : Int} {s1 : State} (ha : alloc_pages M s rank = some (.ok p, s1)) :
    query_ranks M s1 p = some (.ok rank) := by
  obtain ⟨mr, hI⟩ := reachable_inv hR
  obtain ⟨r, j, rfl, hr1, hr, hj, rfl, I1, hrank⟩ := alloc_pages_ok hI ha
  have hlt := node_page_lt (by omega : mr - r < mr) hj
  have hle := max_page_num_le I1.mr_le
  have hmp := I1.max_page_num_eq
  unfold query_ranks
  simp only []
  rw [page_of_node I1 hlt, if_neg (by omega), getRank_eq rfl (by omega), some_bind, hrank,
    if_neg (by omega)]

/-- C7 at a concrete input: `alloc_pages(3)` on a fresh 16-page arena returns 65536. -/
theorem query_ranks_after_alloc_witness :
    Reachable 16 65536 16 arena16 [] ∧
    alloc_pages 16 arena16 3 = some (.ok 65536, arena16_alloc3) ∧
    query_ranks 16 arena16_alloc3 65536 = some (.ok 3) :=
  ⟨arena16_reachable, arena16_alloc,
    query_ranks_after_alloc arena16_reachable arena16_alloc⟩

/-- C9: `init_page(base, pgcount)` with `pgcount ≥ 1`, from any earlier state, returns `OK`;
afterwards `query_page_counts(max_rank)` is 1, the list of rank `max_rank` consists of
`node[1]` alone, whose address is `base`, and `query_page_counts(r)` is 0 for
`1 ≤ r < max_rank` (the head of that list is null). -/
theorem init_page_free_lists (M : Nat) (s0 : State) (base pgcount : Int) (hM : 1 ≤ M)
    (hpg : 1 ≤ pgcount) (hsmall : M ≤ 19 ∨ pgcount < 2 ^ 19) :
    ∃ s, init_page M s0 base pgcount = some (.ok (), s) ∧
      query_page_counts M s s.max_rank = some 1 ∧
      (s.free_list (s.max_rank - 1).toNat).head = some 1 ∧
      (s.node 1).next = none ∧ (s.node 1).prev = none ∧ (s.node 1).p = base ∧
      ∀ r : Int, 1 ≤ r → r < s.max_rank →
        query_page_counts M s r = some 0 ∧ (s.free_list (r - 1).toNat).head = none := by
  obtain ⟨s, mr, e, hF⟩ := init_page_spec M s0 base pgcount hM hpg hsmall
  have hmr := hF.max_rank_eq
  have h1 := hF.mr_pos
  have h2 := hF.mr_le
  have hn := hF.nodes 0 1 (by omega) AtLevel.root
  have e1 : (s.max_rank - 1).toNat = mr - 1 := by omega
  refine ⟨s, e, ?_, ?_, ?_, ?_, ?_, ?_⟩
  · unfold query_page_counts
    rw [getList_eq (k := mr - 1) (by omega) (by omega), some_bind, hF.list_top]
    rfl
  · rw [e1, hF.list_top]
  · rw [hn]
  · rw [hn]
  · rw [hn]
    simp
  · intro r hr1 hr2
    obtain ⟨k, rfl⟩ : ∃ k : Nat, r = (k : Int) := ⟨r.toNat, by omega⟩
    have e2 : ((k : Int) - 1).toNat = k - 1 := by omega
    unfold query_page_counts
    rw [getList_eq (k := k - 1) (by omega) (by omega), some_bind, e2,
      hF.lists_below (k - 1) (by omega)]
    exact ⟨rfl, rfl⟩

/-- C9 at a concrete input: a 16-page arena, from the zero-filled state. -/
theorem init_page_free_lists_witness :
    (1 : Int) ≤ 16 ∧
    ∃ s, init_page 16 zero_state 65536 16 = some (.ok (), s) ∧
      query_page_counts 16 s s.max_rank = some 1 ∧
      (s.free_list (s.max_rank - 1).toNat).head = some 1 ∧
      (s.node 1).next = none ∧ (s.node 1).prev = none ∧ (s.node 1).p = 65536 ∧
      ∀ r : Int, 1 ≤ r → r < s.max_rank →
        query_page_counts 16 s r = some 0 ∧ (s.free_list (r - 1).toNat).head = none :=
  ⟨by decide, init_page_free_lists 16 zero_state 65536 16 (by decide) (by decide)
    (by decide)⟩

theorem spec_largest_rank_iff {pg : Int} {r : Nat} :
    spec_largest_rank pg r ↔ (2 : Int) ^ r ≤ pg ∧ pg < 2 ^ (r + 1) := by
  unfold spec_largest_rank
  constructor
  · rintro ⟨h1, h2⟩
    refine ⟨h1, ?_⟩
    by_contra hc
    have := h2 (r + 1) (by omega)
    omega
  · rintro ⟨h1, h2⟩
    refine ⟨h1, fun r' hr' => ?_⟩
    by_contra hc
    have h3 : (2 : Int) ^ (r + 1) ≤ 2 ^ r' := pow_le_pow_right₀ (by norm_num) (by omega)
    omega

/-- C10 (as stated, fails): for a 16-page arena `init_page` sets `max_rank` to 5, while the
largest `r` with `2 ^ r ≤ 16` is 4 (and the cap `MAX_RANK = 16` does not apply). -/
theorem max_rank_not_largest_power :
    ∃ s, init_page 16 zero_state 65536 16 = some (.ok (), s) ∧
      ¬ ∃ r : Nat, spec_largest_rank 16 r ∧ s.max_rank = ((min r 16 : Nat) : Int) := by
  refine ⟨arena16, arena16_init, ?_⟩
  rintro ⟨r, hr, h⟩
  rw [spec_largest_rank_iff] at hr
  have h5 : arena16.max_rank = 5 := by decide
  rw [h5] at h
  have hr4 : r < 5 := by
    by_contra hc
    have h3 : (2 : Int) ^ 5 ≤ 2 ^ r := pow_le_pow_right₀ (by norm_num) (by omega)
    have : (2 : Int) ^ 5 = 32 := by norm_num
    omega
  omega

/-- C10 (amended): after `init_page(base, pgcount)` with `pgcount ≥ 1`, `max_rank` is one
more than the largest `r` with `2 ^ r ≤ pgcount`, capped at `MAX_RANK`. -/
theorem init_page_max_rank (M : Nat) (s0 : State) (base pgcount : Int) (hM : 1 ≤ M)
    (hpg : 1 ≤ pgcount) (hsmall : M ≤ 19 ∨ pgcount < 2 ^ 19) :
    ∃ (s : State) (r : Nat), init_page M s0 base pgcount = some (.ok (), s) ∧
      spec_largest_rank pgcount r ∧ s.max_rank = ((min (r + 1) M : Nat) : Int) := by
  obtain ⟨s, mr, e, hF⟩ := init_page_spec M s0 base pgcount hM hpg hsmall
  have h1 := hF.mr_pos
  have hlow := hF.pow_le (mr - 1) (by omega)
  obtain ⟨n, rfl⟩ : ∃ n : Nat, pgcount = (n : Int) := ⟨pgcount.toNat, by omega⟩
  have hn0 : n ≠ 0 := by omega
  have hr1 : 2 ^ Nat.log 2 n ≤ n := Nat.pow_log_le_self 2 hn0
  have hr2 : n < 2 ^ (Nat.log 2 n + 1) := Nat.lt_pow_succ_log_self (by norm_num) n
  have hlow' : 2 ^ (mr - 1) ≤ n := by exact_mod_cast hlow
  have hle : mr - 1 ≤ Nat.log 2 n := by
    by_contra hc
    have : 2 ^ (Nat.log 2 n + 1) ≤ 2 ^ (mr - 1) := Nat.pow_le_pow_right (by norm_num) (by omega)
    omega
  refine ⟨s, Nat.log 2 n, e, ?_, ?_⟩
  · rw [spec_largest_rank_iff]
    exact ⟨by exact_mod_cast hr1, by exact_mod_cast hr2⟩
  · rw [hF.max_rank_eq]
    congr 1
    rcases hF.stop with h | h
    · omega
    · have h' : n < 2 ^ mr := by exact_mod_cast h
      have : Nat.log 2 n < mr := by
        by_contra hc
        have : 2 ^ mr ≤ 2 ^ Nat.log 2 n := Nat.pow_le_pow_right (by norm_num) (by omega)
        omega
      have := hF.mr_le
      omega

/-- C10 (amended) at a concrete input: a 16-page arena. -/
theorem init_page_max_rank_witness :
    (1 : Int) ≤ 16 ∧
    ∃ (s : State) (r : Nat), init_page 16 zero_state 65536 16 = some (.ok (), s) ∧
      spec_largest_rank 16 r ∧ s.max_rank = ((min (r + 1) 16 : Nat) : Int) :=
  ⟨by decide, init_page_max_rank 16 zero_state 65536 16 (by decide) (by decide) (by decide)⟩

/-! ## Where the code departs from its specification -/

set_option maxRecDepth 100000 in
/-- C1 (fails on the code): on a 4-page arena, after three `alloc_pages(1)` (pages 0, 1, 2),
the return of page 1 and of page 0, and three more `alloc_pages(1)` (pages 3, 0, 1), a
further `alloc_pages(1)` returns the address 77824 of page 3 again, which has not been given
back: the outstanding allocations are no longer pairwise disjoint. -/
theorem alloc_pages_returns_outstanding_address :
    (boot 16 65536 4 [.alloc_pages 1, .alloc_pages 1, .alloc_pages 1,
        .return_pages 69632, .return_pages 65536,
        .alloc_pages 1, .alloc_pages 1, .alloc_pages 1, .alloc_pages 1]).map
      (fun st => (st.2, decide (st.2.Pairwise fun a b => overlap a b = false)))
    = some ([(77824, 1), (69632, 1), (65536, 1), (77824, 1), (73728, 1)], false) := by
  decide

set_option maxRecDepth 100000 in
/-- C2 (fails on the code): on a 4-page arena, after three `alloc_pages(1)` (pages 0, 1, 2),
the return of page 0 and of page 2, two more `alloc_pages(1)` (pages 0, 2) and the return of
page 2, `alloc_pages(1)` returns 77824 (page 3) and `return_pages(77824)` returns `OK`, but
`query_page_counts` for the ranks 1, 2, 3 is 0, 1, 0 before the two calls and -2, 2, 0 after
them. -/
theorem round_trip_changes_page_counts :
    (boot 16 65536 4 [.alloc_pages 1, .alloc_pages 1, .alloc_pages 1,
        .return_pages 65536, .return_pages 73728,
        .alloc_pages 1, .alloc_pages 1, .return_pages 73728]).bind
      (fun st => (alloc_pages 16 st.1 1).bind fun r1 =>
        match r1.1 with
        | .ok p => (return_pages 16 r1.2 p).map fun r2 =>
            (p, r2.1, page_counts 16 st.1 3, page_counts 16 r2.2 3)
        | .error _ => none)
    = some (77824, .ok (), [some 0, some 1, some 0], [some (-2), some 2, some 0]) := by
  decide

set_option maxRecDepth 100000 in
/-- C6 (fails on the code): on a 4-page arena, after four `alloc_pages(1)` and the return of
pages 0, 1 and 2, page 3 is the only outstanding allocation, `rank_of_page` is -1 at the
pages 0, 1, 2, the free list of rank 2 holds `node[2]`, the block of the pages 0 and 1, and
the free list of rank 3 is empty; yet `query_ranks` of the address of page 0 returns 3. -/
theorem query_ranks_overestimates_free_block :
    (boot 16 65536 4 [.alloc_pages 1, .alloc_pages 1, .alloc_pages 1, .alloc_pages 1,
        .return_pages 65536, .return_pages 69632, .return_pages 73728]).map
      (fun st => (st.2, (List.range 4).map st.1.rank_of_page,
        (st.1.free_list 1).head, (st.1.node 2).p, (st.1.free_list 2).head,
        query_ranks 16 st.1 65536))
    = some ([(77824, 1)], [-1, -1, -1, 1], some 2, 65536, none, some (.ok 3)) := by
  rfl

set_option maxRecDepth 100000 in
/-- C8 (fails on the code): after `init_page` of a 16-page arena on the zero-filled state,
`max_page_num` is 16 and the 16 entries of `rank_of_page` are 0, not -1. -/
theorem init_page_leaves_rank_of_page :
    (init_page 16 zero_state 65536 16).map
      (fun r => (r.2.max_page_num, (List.range 16).map r.2.rank_of_page))
    = some (16, List.replicate 16 0) := by
  decide

/-! ## What the calls write -/

theorem getNode_some {M : Nat} {s : State} {j : Nat} {nd : tree_node}
    (h : getNode M s j = some nd) : j < NODE_NUM M ∧ nd = s.node j := by
  unfold getNode at h
  split at h
  · next hc => cases h; exact ⟨hc, rfl⟩
  · cases h

theorem setNode_some {M : Nat} {s s' : State} {j : Nat} {nd : tree_node}
    (h : setNode M s j nd = some s') : j < NODE_NUM M ∧ s' = updNode s j nd := by
  unfold setNode at h
  split at h
  · next hc => cases h; exact ⟨hc, rfl⟩
  · cases h

theorem getList_some {M : Nat} {s : State} {i : Int} {l : node_list}
    (h : getList M s i = some l) : 0 ≤ i ∧ i < M ∧ l = s.free_list i.toNat := by
  unfold getList at h
  split at h
  · next hc => cases h; exact ⟨hc.1, hc.2, rfl⟩
  · cases h

theorem setList_some {M : Nat} {s s' : State} {i : Int} {l : node_list}
    (h : setList M s i l = some s') : 0 ≤ i ∧ i < M ∧ s' = updList s i.toNat l := by
  unfold setList at h
  split at h
  · next hc => cases h; exact ⟨hc.1, hc.2, rfl⟩
  · cases h

theorem setRank_some {M : Nat} {s s' : State} {i r : Int}
    (h : setRank M s i r = some s') :
    0 ≤ i ∧ i < MAX_PAGE_NUM M ∧ s' = updRank s i.toNat r := by
  unfold setRank at h
  split at h
  · next hc => cases h; exact ⟨hc.1, hc.2, rfl⟩
  · cases h

theorem index_some {i : Int} {size n : Nat} (h : index i size = some n) :
    0 ≤ i ∧ i < size ∧ n = i.toNat := by
  unfold index at h
  split at h
  · next hc => cases h; exact ⟨hc.1, hc.2, rfl⟩
  · cases h

theorem alloc_unlink_post {M : Nat} {s s' : State} {i : Int} {n : Nat}
    (h : alloc_unlink M s i n = some s') :
    (∀ idx : Nat, s'.free_list idx = if idx = (i - 1).toNat then
        { head := (s.node n).next, size := size_dec (s.free_list (i - 1).toNat).size }
      else s.free_list idx) ∧
    (∀ j : Nat, (s'.node j).next = if j = n then none else (s.node j).next) ∧
    (∀ j : Nat, (s'.node j).is_allocated = (s.node j).is_allocated) := by
  unfold alloc_unlink at h
  obtain ⟨nd, hnd, h⟩ := bind_inv h
  obtain ⟨-, rfl⟩ := getNode_some hnd
  obtain ⟨s1, h1, h⟩ := bind_inv h
  have hs1 : s1.free_list = s.free_list ∧ (∀ j : Nat, (s1.node j).next = (s.node j).next) ∧
      ∀ j : Nat, (s1.node j).is_allocated = (s.node j).is_allocated := by
    cases hnx : (s.node n).next with
    | none =>
      rw [hnx] at h1
      simp only [] at h1
      cases h1
      exact ⟨rfl, fun _ => rfl, fun _ => rfl⟩
    | some nx =>
      rw [hnx] at h1
      simp only [] at h1
      obtain ⟨nxd, h2, h1⟩ := bind_inv h1
      obtain ⟨-, rfl⟩ := getNode_some h2
      obtain ⟨-, rfl⟩ := setNode_some h1
      refine ⟨rfl, fun j => ?_, fun j => ?_⟩ <;>
      · simp only [updNode]
        split
        · next hj => subst hj; rfl
        · rfl
  obtain ⟨hl1, hn1, ha1⟩ := hs1
  obtain ⟨nd1, h2, h⟩ := bind_inv h
  obtain ⟨-, rfl⟩ := getNode_some h2
  obtain ⟨l, h3, h⟩ := bind_inv h
  obtain ⟨-, -, rfl⟩ := getList_some h3
  obtain ⟨s2, h4, h⟩ := bind_inv h
  obtain ⟨-, -, rfl⟩ := setList_some h4
  obtain ⟨l2, h5, h⟩ := bind_inv h
  obtain ⟨-, -, rfl⟩ := getList_some h5
  obtain ⟨s3, h6, h⟩ := bind_inv h
  obtain ⟨-, -, rfl⟩ := setList_some h6
  obtain ⟨nd3, h7, h⟩ := bind_inv h
  obtain ⟨-, rfl⟩ := getNode_some h7
  obtain ⟨-, rfl⟩ := setNode_some h
  refine ⟨fun idx => ?_, fun j => ?_, fun j => ?_⟩
  · simp only [updNode, updList]
    split
    · simp [hl1, hn1]
    · rw [hl1]
  · simp only [updNode, updList]
    split
    · rfl
    · exact hn1 j
  · simp only [updNode, updList]
    split
    · next hj => subst hj; exact ha1 j
    · exact ha1 j

theorem shl_nat_one {n : Nat} {v : Int} (h : shl (n : Int) 1 = some v) :
    v = ((2 * n : Nat) : Int) := by
  rcases shl_some h with ⟨-, -, h3⟩ | ⟨h1, -, h3⟩
  · rw [h3]
    simp
    ring
  · rw [h3]
    omega

theorem two_mul_pow_pred (n a : Nat) (h : 1 ≤ a) : 2 * n * 2 ^ (a - 1) = n * 2 ^ a := by
  obtain ⟨c, rfl⟩ : ∃ c, a = c + 1 := ⟨a - 1, by omega⟩
  rw [Nat.add_sub_cancel, pow_succ]
  ring

theorem alloc_split_post {M : Nat} (r : Nat) (hr : 1 ≤ r) :
    ∀ (fuel : Nat) (s : State) (k n : Nat) (s' : State) (n' : Nat),
      alloc_split M r fuel s k n = some (s', n') → r ≤ k →
      n' = n * 2 ^ (k - r) ∧
      (∀ idx : Nat, s'.free_list idx = if r - 1 ≤ idx ∧ idx < k - 1 then
          { head := some (n * 2 ^ (k - 1 - idx) + 1), size := 1 }
        else s.free_list idx) ∧
      (∀ j : Nat, (s'.node j).next = (s.node j).next) := by
  intro fuel
  induction fuel with
  | zero =>
    intro s k n s' n' h
    unfold alloc_split at h
    cases h
  | succ fuel ih =>
    intro s k n s' n' h hrk
    unfold alloc_split at h
    split at h
    · next hc =>
      have hlt : r < k := by omega
      obtain ⟨nd, h1, h⟩ := bind_inv h
      obtain ⟨-, rfl⟩ := getNode_some h1
      obtain ⟨s1, h2, h⟩ := bind_inv h
      obtain ⟨-, rfl⟩ := setNode_some h2
      simp only [] at h
      obtain ⟨dbl, h3, h⟩ := bind_inv h
      have hd := shl_nat_one h3
      subst hd
      obtain ⟨rc, h4, h⟩ := bind_inv h
      obtain ⟨-, -, hrc⟩ := index_some h4
      simp only [Int.toNat_ofNat, lor_one, Int.ofNat_eq_coe] at hrc
      subst hrc
      obtain ⟨l, h5, h⟩ := bind_inv h
      obtain ⟨-, -, rfl⟩ := getList_some h5
      obtain ⟨s2, h6, h⟩ := bind_inv h
      obtain ⟨-, -, rfl⟩ := setList_some h6
      obtain ⟨l2, h7, h⟩ := bind_inv h
      obtain ⟨-, -, rfl⟩ := getList_some h7
      obtain ⟨s3, h8, h⟩ := bind_inv h
      obtain ⟨-, -, rfl⟩ := setList_some h8
      obtain ⟨n2, h9, h⟩ := bind_inv h
      obtain ⟨-, -, hn2⟩ := index_some h9
      simp only [Int.toNat_ofNat] at hn2
      subst hn2
      have hk1 : (k : Int) - 1 = ((k - 1 : Nat) : Int) := by omega
      have hk2 : (((k - 1 : Nat) : Int) - 1).toNat = k - 2 := by omega
      rw [hk1] at h
      obtain ⟨e1, e2, e3⟩ := ih _ (k - 1) (2 * n) s' n' h (by omega)
      rw [hk2] at e2
      refine ⟨?_, fun idx => ?_, fun j => ?_⟩
      · rw [e1]
        have : k - 1 - r = k - r - 1 := by omega
        rw [this]
        exact two_mul_pow_pred n (k - r) (by omega)
      · rw [e2 idx]
        by_cases h1 : r - 1 ≤ idx ∧ idx < k - 1 - 1
        · rw [if_pos h1, if_pos (by omega)]
          have : k - 1 - 1 - idx = k - 1 - idx - 1 := by omega
          rw [this, two_mul_pow_pred n (k - 1 - idx) (by omega)]
        · rw [if_neg h1]
          simp only [updList, updNode]
          by_cases h2 : idx = k - 2
          · subst h2
            have c1 : r - 1 ≤ k - 2 ∧ k - 2 < k - 1 := by omega
            have c2 : k - 1 - (k - 2) = 1 := by omega
            rw [if_pos c1, c2, pow_one, Nat.mul_comm n 2]
            simp
          · have c1 : ¬ (r - 1 ≤ idx ∧ idx < k - 1) := by omega
            rw [if_neg c1]
            simp [h2]
      · rw [e3 j]
        simp only [updList, updNode]
        split
        · next hj => subst hj; rfl
        · rfl
    · next hc =>
      cases h
      have : k = r := by omega
      subst this
      refine ⟨by simp, fun idx => ?_, fun j => rfl⟩
      rw [if_neg (by omega)]


theorem node_page_descend {mr r k n : Nat} (hr : 1 ≤ r) (hrk : r ≤ k) (hk : k ≤ mr) :
    node_page mr (mr - r) (n * 2 ^ (k - r)) = node_page mr (mr - k) n := by
  unfold node_page
  have e1 : mr - 1 - (mr - r) = r - 1 := by omega
  have e2 : mr - 1 - (mr - k) = k - 1 := by omega
  have e3 : 2 ^ (mr - r) = 2 ^ (mr - k) * 2 ^ (k - r) := by
    rw [← pow_add]
    congr 1
    omega
  have e4 : 2 ^ (k - 1) = 2 ^ (k - r) * 2 ^ (r - 1) := by
    rw [← pow_add]
    congr 1
    omega
  rw [e1, e2, e3, ← Nat.sub_mul, e4, Nat.mul_assoc]

theorem alloc_pages_post {M : Nat} {base : Int} {mr : Nat} {s s1 : State}
    (hI : Inv M base mr s) (r : Nat) (hr1 : 1 ≤ r) {p : Int}
    (h : alloc_pages M s r = some (.ok p, s1)) :
    ∃ k n : Nat, r ≤ k ∧ k ≤ mr ∧ (s.free_list (k - 1)).head = some n ∧
      (∀ k' : Nat, r ≤ k' → k' < k → (s.free_list (k' - 1)).head = none) ∧
      AtLevel (mr - k) n ∧ p = (s.node n).p ∧
      p = base + 4096 * (node_page mr (mr - k) n : Int) ∧
      (∀ idx : Nat, s1.free_list idx =
        if r - 1 ≤ idx ∧ idx < k - 1 then
          { head := some (n * 2 ^ (k - 1 - idx) + 1), size := 1 }
        else if idx = k - 1 then
          { head := (s.node n).next, size := size_dec (s.free_list (k - 1)).size }
        else s.free_list idx) ∧
      (∀ j : Nat, (s1.node j).next = if j = n then none else (s.node j).next) ∧
      Inv M base mr s1 := by
  have hM := hI.mr_le
  have hrM : r ≤ M := by
    unfold alloc_pages at h
    simp only [] at h
    obtain ⟨l, hl, -⟩ := bind_inv h
    have := (getList_some hl).2.1
    omega
  obtain ⟨res, e, hs⟩ := alloc_pages_spec hI r hr1 hrM
  rw [e] at h
  cases h
  rcases hs with ⟨h1, -⟩ | ⟨k, n, hrk, hk, hh, hmin, hlev, hres, I1, -, -⟩
  · cases h1
  simp only [] at hres
  cases hres
  have hn : AtLevel (mr - k) n := by
    have := hI.head (k - 1) n (by omega) hh
    have e : mr - 1 - (k - 1) = mr - k := by omega
    rwa [e] at this
  refine ⟨k, n, hrk, hk, hh, hmin, hn, ?_, ?_, ?_, ?_, I1⟩
  · rw [node_page_descend hr1 hrk hk, hI.node_p (by omega) hn]
  · rw [node_page_descend hr1 hrk hk]
  all_goals
    unfold alloc_pages at e
    simp only [] at e
    obtain ⟨l, hl, e⟩ := bind_inv e
    obtain ⟨-, -, rfl⟩ := getList_some hl
    obtain ⟨found, hf, e⟩ := bind_inv e
    have hfound : found = some ((k : Int), n) := by
      have e0 : ((r : Int) - 1).toNat = r - 1 := by omega
      rw [e0] at hf
      cases hh0 : (s.free_list (r - 1)).head with
      | some n0 =>
        rw [hh0] at hf
        simp only [] at hf
        cases hf
        have hkr : k = r := by
          by_contra hne
          have := hmin r (le_refl _) (by omega)
          rw [hh0] at this
          cases this
        subst hkr
        rw [hh0] at hh
        cases hh
        rfl
      | none =>
        rw [hh0] at hf
        simp only [] at hf
        obtain ⟨found', e', hsp⟩ := alloc_search_spec hI.max_rank_eq hM
          ((s.max_rank - (r : Int)).toNat + 1) r (by rw [hI.max_rank_eq]; omega)
        rw [e'] at hf
        cases hf
        rcases hsp with ⟨-, h2⟩ | ⟨k', n', h1, h2, h3, h4, h5⟩
        · have hkr : k ≠ r := by
            intro hkr
            subst hkr
            rw [hh0] at hh
            cases hh
          have := h2 k (by omega) hk
          rw [hh] at this
          cases this
        · have hkk : k' = k := by
            by_contra hne
            rcases Nat.lt_or_gt_of_ne hne with hlt | hlt
            · have := hmin k' (by omega) hlt
              rw [h4] at this
              cases this
            · have hkr : k ≠ r := by
                intro hkr
                subst hkr
                rw [hh0] at hh
                cases hh
              have := h5 k (by omega) hlt
              rw [hh] at this
              cases this
          subst hkk
          rw [h4] at hh
          cases hh
          exact h1
    subst hfound
    simp only [] at e
    obtain ⟨sa, ha, e⟩ := bind_inv e
    obtain ⟨⟨sb, nb⟩, hb, e⟩ := bind_inv e
    simp only [] at e
    obtain ⟨nd, h1, e⟩ := bind_inv e
    obtain ⟨-, rfl⟩ := getNode_some h1
    obtain ⟨sc, h2, e⟩ := bind_inv e
    obtain ⟨-, rfl⟩ := setNode_some h2
    obtain ⟨nd3, h3, e⟩ := bind_inv e
    obtain ⟨-, rfl⟩ := getNode_some h3
    obtain ⟨sd, h4, e⟩ := bind_inv e
    obtain ⟨-, -, rfl⟩ := setRank_some h4
    obtain ⟨nd5, h5, e⟩ := bind_inv e
    simp only [Option.some.injEq, Prod.mk.injEq] at e
    obtain ⟨-, es⟩ := e
    subst es
    obtain ⟨u1, u2, -⟩ := alloc_unlink_post ha
    obtain ⟨-, v2, v3⟩ := alloc_split_post r hr1 _ sa k n sb nb hb hrk
    have e0 : ((k : Int) - 1).toNat = k - 1 := by omega
    rw [e0] at u1
  · intro idx
    show sb.free_list idx = _
    rw [v2 idx]
    split
    · rfl
    · rw [u1 idx]
  · intro j
    simp only [updRank, updNode]
    split
    · next hj =>
      rw [hj]
      simp only [v3, u2]
    · simp only [v3, u2]

/-! ## More claims about the interface -/

/-- C11: after `init_page(base, pgcount)` with `1 ≤ pgcount < 2 ^ MAX_RANK`, `max_page_num`
is `2 ^ (max_rank - 1)`, it is the largest power of two that is at most `pgcount`, and
`1 ≤ max_rank ≤ MAX_RANK`. -/
theorem init_page_max_page_num (M : Nat) (s0 : State) (base pgcount : Int) (hM : 1 ≤ M)
    (hpg : 1 ≤ pgcount) (hlt : pgcount < 2 ^ M) (hsmall : M ≤ 19 ∨ pgcount < 2 ^ 19) :
    ∃ (s : State) (mr : Nat), init_page M s0 base pgcount = some (.ok (), s) ∧
      s.max_rank = mr ∧ 1 ≤ mr ∧ mr ≤ M ∧ s.max_page_num = 2 ^ (mr - 1) ∧
      s.max_page_num ≤ pgcount ∧ ∀ e : Nat, (2 : Int) ^ e ≤ pgcount → 2 ^ e ≤ s.max_page_num := by
  obtain ⟨s, mr, e, hF⟩ := init_page_spec M s0 base pgcount hM hpg hsmall
  have h1 := hF.mr_pos
  have hup : pgcount < 2 ^ mr := by
    rcases hF.stop with h | h
    · rw [h]; exact hlt
    · exact h
  have hmp : s.max_page_num = 2 ^ (mr - 1) := by
    rw [hF.max_page_num_eq]; push_cast; rfl
  refine ⟨s, mr, e, hF.max_rank_eq, h1, hF.mr_le, hmp, ?_, ?_⟩
  · rw [hmp]
    exact hF.pow_le (mr - 1) (by omega)
  · intro e he
    rw [hmp]
    apply pow_le_pow_right₀ (by norm_num)
    by_contra hc
    have : (2 : Int) ^ mr ≤ 2 ^ e := pow_le_pow_right₀ (by norm_num) (by omega)
    omega

/-- C11 at a concrete input: 20 pages with `MAX_RANK = 16` give `max_page_num = 16`. -/
theorem init_page_max_page_num_witness :
    (1 : Int) ≤ 20 ∧ (20 : Int) < 2 ^ 16 ∧
    ∃ (s : State) (mr : Nat), init_page 16 zero_state 65536 20 = some (.ok (), s) ∧
      s.max_rank = mr ∧ 1 ≤ mr ∧ mr ≤ 16 ∧ s.max_page_num = 2 ^ (mr - 1) ∧
      s.max_page_num ≤ 20 ∧ ∀ e : Nat, (2 : Int) ^ e ≤ 20 → 2 ^ e ≤ s.max_page_num :=
  ⟨by decide, by decide,
    init_page_max_page_num 16 zero_state 65536 20 (by decide) (by decide) (by decide)
      (by decide)⟩

theorem alloc_pages_error {M : Nat} {s s' : State} {rank : Int} {e : Errno}
    (h : alloc_pages M s rank = some (.error e, s')) : e = .ENOSPC ∧ s' = s := by
  unfold alloc_pages at h
  simp only [] at h
  obtain ⟨l, -, h⟩ := bind_inv h
  obtain ⟨found, -, h⟩ := bind_inv h
  cases found with
  | none =>
    simp only [] at h
    cases h
    exact ⟨rfl, rfl⟩
  | some f =>
    obtain ⟨i, n⟩ := f
    simp only [] at h
    obtain ⟨s1, -, h⟩ := bind_inv h
    obtain ⟨⟨s2, n2⟩, -, h⟩ := bind_inv h
    simp only [] at h
    obtain ⟨nd, -, h⟩ := bind_inv h
    obtain ⟨s3, -, h⟩ := bind_inv h
    obtain ⟨nd3, -, h⟩ := bind_inv h
    obtain ⟨s4, -, h⟩ := bind_inv h
    obtain ⟨nd4, -, h⟩ := bind_inv h
    cases h

theorem return_pages_error {M : Nat} {s s' : State} {p : Int} {e : Errno}
    (h : return_pages M s p = some (.error e, s')) : e = .EINVAL ∧ s' = s := by
  unfold return_pages at h
  simp only [] at h
  split at h
  · cases h
    exact ⟨rfl, rfl⟩
  · obtain ⟨rank, -, h⟩ := bind_inv h
    split at h
    · cases h
      exact ⟨rfl, rfl⟩
    · obtain ⟨s1, -, h⟩ := bind_inv h
      obtain ⟨ni, -, h⟩ := bind_inv h
      obtain ⟨⟨s2, r2, n2⟩, -, h⟩ := bind_inv h
      simp only [] at h
      obtain ⟨s3, -, h⟩ := bind_inv h
      cases h

set_option maxRecDepth 100000 in
/-- C13, counterexample: on the fresh 16-page arena `alloc_pages(1)` returns 65536; the
address `p = 65536 + 2 ^ 44` has the page index `2 ^ 32`, outside `[0, 16)`, which the
conversion to `int` turns into 0, and `return_pages(p)` returns `OK` and frees page 0. -/
theorem return_pages_accepts_far_address :
    ((alloc_pages 16 arena16 1).bind fun r1 =>
      (return_pages 16 r1.2 (65536 + 2 ^ 44)).map fun r2 =>
        (r1.1, page_of r1.2 (65536 + 2 ^ 44), r1.2.max_page_num, r1.2.rank_of_page 0,
          r2.1, r2.2.rank_of_page 0))
      = some (.ok 65536, 2 ^ 32, 16, 1, .ok (), -1) := by
  rfl

/-- C13, amended: when `alloc_pages` returns an error code, the code is `-ENOSPC` and the
state is the one before the call; when `return_pages` returns an error code, the code is
`-EINVAL` and the state is the one before the call; and `return_pages(p)` does return
`-EINVAL` when the `int page_idx` of the source is outside `[0, max_page_num)`, which is the
case when the page index of `p`, the quotient of `p - mem_start` by 4096, fits an `int` and
is outside `[0, max_page_num)`. -/
theorem error_leaves_state (M : Nat) (s : State) :
    (∀ (rank : Int) (e : Errno) (s' : State),
      alloc_pages M s rank = some (.error e, s') → e = .ENOSPC ∧ s' = s) ∧
    (∀ (p : Int) (e : Errno) (s' : State),
      return_pages M s p = some (.error e, s') → e = .EINVAL ∧ s' = s) ∧
    (∀ p : Int, wrap32 (page_of s p) < 0 ∨ wrap32 (page_of s p) ≥ s.max_page_num →
      return_pages M s p = some (.error .EINVAL, s)) ∧
    (∀ p : Int, -2 ^ 31 ≤ page_of s p → page_of s p < 2 ^ 31 →
      page_of s p < 0 ∨ page_of s p ≥ s.max_page_num →
      return_pages M s p = some (.error .EINVAL, s)) := by
  refine ⟨fun _ _ _ h => alloc_pages_error h, fun _ _ _ h => return_pages_error h,
    fun _ h => return_pages_range h, fun p h0 h1 h => ?_⟩
  apply return_pages_range
  rw [wrap32_of_range h0 h1]
  exact h

set_option maxRecDepth 100000 in
theorem arena16_full : alloc_pages 16 arena16_alloc5 1 = some (.error .ENOSPC, arena16_alloc5) := by
  rfl

set_option maxRecDepth 100000 in
/-- C13 at concrete inputs: on the 16-page arena, taken whole by `alloc_pages(5)`,
`alloc_pages(1)` returns `-ENOSPC`, and `return_pages` of the address 16 pages past the
base returns `-EINVAL`. -/
theorem error_leaves_state_witness :
    alloc_pages 16 arena16_alloc5 1 = some (.error .ENOSPC, arena16_alloc5) ∧
    (Errno.ENOSPC = Errno.ENOSPC ∧ arena16_alloc5 = arena16_alloc5) ∧
    return_pages 16 arena16_alloc5 131072 = some (.error .EINVAL, arena16_alloc5) :=
  ⟨arena16_full,
    (error_leaves_state 16 arena16_alloc5).1 1 .ENOSPC arena16_alloc5 arena16_full,
    (error_leaves_state 16 arena16_alloc5).2.2.1 131072 (by decide)⟩

/-- C15 (amended): in a state reachable from `init_page` on a fresh program, and so right
after `init_page` too, `alloc_pages(rank)` with `max_rank < rank ≤ MAX_RANK` returns
`-ENOSPC` and leaves the state as it is. -/
theorem alloc_pages_above_max_rank {M : Nat} {base pgcount : Int} {s : State}
    {out : List Allocation} (hR : Reachable M base pgcount s out) {rank : Int}
    (h1 : s.max_rank < rank) (h2 : rank ≤ M) :
    alloc_pages M s rank = some (.error .ENOSPC, s) := by
  obtain ⟨mr, hI⟩ := reachable_inv hR
  have hmr := hI.max_rank_eq
  obtain ⟨r, rfl⟩ : ∃ r : Nat, rank = (r : Int) := ⟨rank.toNat, by omega⟩
  obtain ⟨res, e, h⟩ := alloc_pages_spec hI r (by omega) (by omega)
  rcases h with ⟨h3, -⟩ | ⟨k, n, h3, h4, -⟩
  · rw [e, h3]
  · omega

set_option maxRecDepth 100000 in
/-- C12 (fails on the code): on a fresh 16-page arena, after `alloc_pages(2)` has returned
the pages 0 and 1, the entries of `rank_of_page` for page 1 (inside the allocated block) and
for page 8 (never handed out) are 0, and `return_pages` of either address does not return:
it passes the test `rank == -1` and shifts by `rank - 1 = -1`. -/
theorem return_pages_of_unallocated_page :
    (boot 16 65536 16 [.alloc_pages 2]).map
      (fun st => (st.2, st.1.rank_of_page 1, st.1.rank_of_page 8,
        (return_pages 16 st.1 69632).map Prod.fst,
        (return_pages 16 st.1 98304).map Prod.fst))
    = some ([(65536, 2)], 0, 0, none, none) := by
  rfl

set_option maxRecDepth 100000 in
/-- C14 (fails on the code): on a 4-page arena there is a reachable state in which
`query_page_counts(1)` is 1 while the rank-1 list holds the two nodes 5 and 7, and two calls
later one in which `query_page_counts(1)` is -1 while the list is empty. -/
theorem page_count_differs_from_list :
    (boot 16 65536 4 [.alloc_pages 1, .alloc_pages 1, .alloc_pages 1,
        .return_pages 69632, .return_pages 65536, .alloc_pages 1, .alloc_pages 1]).map
      (fun st => (query_page_counts 16 st.1 1, list_nodes st.1 64 (st.1.free_list 0).head))
    = some (some 1, [5, 7]) ∧
    (boot 16 65536 4 [.alloc_pages 1, .alloc_pages 1, .alloc_pages 1,
        .return_pages 69632, .return_pages 65536, .alloc_pages 1, .alloc_pages 1,
        .alloc_pages 1, .alloc_pages 1]).map
      (fun st => (query_page_counts 16 st.1 1, list_nodes st.1 64 (st.1.free_list 0).head))
    = some (some (-1), []) := by
  constructor <;> rfl

set_option maxRecDepth 100000 in
/-- C17 (fails on the code): on a fresh 16-page arena, after `alloc_pages(1)` and the return
of the page, nothing is outstanding and the root `node[1]` is the one node on a free list
(that of rank 5), but its `is_allocated` is still 1. -/
theorem root_on_list_keeps_flag :
    (boot 16 65536 16 [.alloc_pages 1, .return_pages 65536]).map
      (fun st => (st.2, free_lists st.1 5, (st.1.node 1).is_allocated))
    = some ([], [[], [], [], [], [1]], 1) := by
  rfl

set_option maxRecDepth 100000 in
/-- C18 (fails on the code): on a 4-page arena, after three `alloc_pages(1)` and the return
of the pages 0 and 1, the free lists of the ranks 1, 2, 3 hold the nodes 7, 2 and none;
`node[4]` is on no list and its `next` still points to `node[7]`. -/
theorem unlinked_buddy_keeps_next :
    (boot 16 65536 4 [.alloc_pages 1, .alloc_pages 1, .alloc_pages 1,
        .return_pages 65536, .return_pages 69632]).map
      (fun st => (free_lists st.1 3, (st.1.node 4).next, (st.1.node 4).prev))
    = some ([[7], [2], []], some 7, none) := by
  rfl

set_option maxRecDepth 100000 in
/-- C15 (as stated, fails): on a fresh 16-page arena with `MAX_RANK = 16`, `alloc_pages(0)`,
`alloc_pages(-3)` and `alloc_pages(17)` do not return `-ENOSPC`: they read `free_list`
outside its bounds. -/
theorem alloc_pages_rank_out_of_bounds :
    (alloc_pages 16 arena16 0).map Prod.fst = none ∧
    (alloc_pages 16 arena16 (-3)).map Prod.fst = none ∧
    (alloc_pages 16 arena16 17).map Prod.fst = none := by
  refine ⟨?_, ?_, ?_⟩ <;> rfl

/-- C15 (amended) at a concrete input: rank 6 on the fresh 16-page arena, where `max_rank`
is 5 and `MAX_RANK` is 16. -/
theorem alloc_pages_above_max_rank_witness :
    Reachable 16 65536 16 arena16 [] ∧ arena16.max_rank < 6 ∧ (6 : Int) ≤ (16 : Nat) ∧
    alloc_pages 16 arena16 6 = some (.error .ENOSPC, arena16) :=
  ⟨arena16_reachable, by decide, by decide,
    alloc_pages_above_max_rank arena16_reachable (by decide) (by decide)⟩

/-- C19: in a reachable state, when `alloc_pages(rank)` succeeds, it has taken the head `n`
of the free list of the lowest rank `k` in `rank .. max_rank` whose list is not empty, the
address it returns is that of `n` (its left-most sub-block of rank `rank`), and for every
rank `i` with `rank ≤ i < k` the free list of rank `i` now consists of the right child of
the left-most descendant of `n` of rank `i + 1`. -/
theorem alloc_pages_takes_lowest_head {M : Nat} {base pgcount : Int} {s : State}
    {out : List Allocation} (hR : Reachable M base pgcount s out)
    {rank p : Int} {s1 : State} (ha : alloc_pages M s rank = some (.ok p, s1)) :
    ∃ r k n : Nat, rank = r ∧ 1 ≤ r ∧ r ≤ k ∧ (k : Int) ≤ s.max_rank ∧
      (s.free_list (k - 1)).head = some n ∧
      (∀ k' : Nat, r ≤ k' → k' < k → (s.free_list (k' - 1)).head = none) ∧
      p = (s.node n).p ∧
      ∀ i : Nat, r ≤ i → i < k →
        s1.free_list (i - 1) = { head := some (2 * (n * 2 ^ (k - 1 - i)) + 1), size := 1 } := by
  obtain ⟨mr, hI⟩ := reachable_inv hR
  obtain ⟨r, -, rfl, hr1, -⟩ := alloc_pages_ok hI ha
  obtain ⟨k, n, hrk, hk, hh, hmin, -, hp, -, hl, -⟩ := alloc_pages_post hI r hr1 ha
  refine ⟨r, k, n, rfl, hr1, hrk, by rw [hI.max_rank_eq]; omega, hh, hmin, hp, ?_⟩
  intro i hi1 hi2
  rw [hl (i - 1), if_pos (by omega)]
  have e1 : k - 1 - (i - 1) = k - i := by omega
  have e2 : k - 1 - i = k - i - 1 := by omega
  rw [e1, e2, ← Nat.mul_assoc, two_mul_pow_pred n (k - i) (by omega)]

set_option maxRecDepth 100000 in
/-- C19 at concrete inputs: `alloc_pages(3)` on the fresh 16-page arena; and the scenario of
the claim, in which the four calls return the pages 0, 4, 6, 7 and leave the free lists of
the ranks 1, 2, 3 empty and `node[3]` alone on that of rank 4. -/
theorem alloc_pages_takes_lowest_head_witness :
    (Reachable 16 65536 16 arena16 [] ∧
     alloc_pages 16 arena16 3 = some (.ok 65536, arena16_alloc3) ∧
     ∃ r k n : Nat, (3 : Int) = r ∧ 1 ≤ r ∧ r ≤ k ∧ (k : Int) ≤ arena16.max_rank ∧
      (arena16.free_list (k - 1)).head = some n ∧
      (∀ k' : Nat, r ≤ k' → k' < k → (arena16.free_list (k' - 1)).head = none) ∧
      (65536 : Int) = (arena16.node n).p ∧
      ∀ i : Nat, r ≤ i → i < k →
        arena16_alloc3.free_list (i - 1)
          = { head := some (2 * (n * 2 ^ (k - 1 - i)) + 1), size := 1 }) ∧
    (boot 16 65536 16 [.alloc_pages 3, .alloc_pages 2, .alloc_pages 1, .alloc_pages 1]).map
      (fun st => (st.2, page_counts 16 st.1 5, free_lists st.1 5))
    = some ([(65536 + 7 * 4096, 1), (65536 + 6 * 4096, 1), (65536 + 4 * 4096, 2), (65536, 3)],
        [some 0, some 0, some 0, some 1, some 0], [[], [], [], [3], []]) :=
  ⟨⟨arena16_reachable, arena16_alloc,
    alloc_pages_takes_lowest_head arena16_reachable arena16_alloc⟩, by rfl⟩

/-! ## Handing out the whole arena page by page -/

theorem div_pred_mul (m q : Nat) (hm : 1 ≤ m) (hq : 1 ≤ q) : (m * q - 1) / q = m - 1 := by
  obtain ⟨m', rfl⟩ : ∃ m', m = m' + 1 := ⟨m - 1, by omega⟩
  have h1 : (m' + 1) * q - 1 = q * m' + (q - 1) := by
    rw [Nat.succ_mul, Nat.mul_comm]
    omega
  rw [h1, Nat.mul_add_div (by omega), Nat.div_eq_of_lt (by omega)]
  simp

theorem div_pred_of_mod_ne (d q : Nat) (hq : 0 < q) (h : d % q ≠ 0) :
    (d - 1) / q = d / q := by
  have h0 := Nat.div_add_mod d q
  have h2 : d % q < q := Nat.mod_lt d hq
  generalize d % q = r at h h0 h2
  generalize d / q = c at h0 ⊢
  have h1 : d - 1 = q * c + (r - 1) := by omega
  have h3 : (r - 1) / q = 0 := Nat.div_eq_of_lt (by omega)
  rw [h1, Nat.mul_add_div hq, h3]
  simp

theorem pow_dvd_of_even_quotients (d : Nat) :
    ∀ k : Nat, (∀ i : Nat, i < k → (d / 2 ^ i) % 2 = 0) → 2 ^ k ∣ d := by
  intro k
  induction k with
  | zero => intro _; simp
  | succ k ih =>
    intro h
    obtain ⟨q, hq⟩ := ih (fun i hi => h i (by omega))
    have h2 := h k (by omega)
    rw [hq, Nat.mul_div_cancel_left _ (Nat.two_pow_pos k)] at h2
    obtain ⟨q', rfl⟩ : ∃ q', q = 2 * q' := ⟨q / 2, by omega⟩
    exact ⟨q', by rw [hq, pow_succ]; ring⟩

theorem odd_le_pow {k e mr : Nat} (hk1 : 1 ≤ k) (hk : k ≤ mr)
    (hd : 2 ^ (k - 1) * e ≤ 2 ^ (mr - 1)) : e ≤ 2 ^ (mr - k) := by
  have h1 : 2 ^ (mr - 1) = 2 ^ (k - 1) * 2 ^ (mr - k) := by
    rw [← pow_add]
    congr 1
    omega
  rw [h1] at hd
  exact Nat.le_of_mul_le_mul_left hd (Nat.two_pow_pos _)

theorem exhaust_head_lower {mr k e i : Nat} (hi1 : 1 ≤ i) (hik : i < k) (hk : k ≤ mr)
    (he : e % 2 = 1) (hd : 2 ^ (k - 1) * e ≤ 2 ^ (mr - 1)) :
    exhaust_head mr (2 ^ (k - 1) * e - 1) i = some ((2 ^ (mr + 1 - k) - e) * 2 ^ (k - i) + 1) := by
  have hle := odd_le_pow (by omega) hk hd
  have h1 : 2 ^ (k - 1) = 2 ^ (k - i) * 2 ^ (i - 1) := by
    rw [← pow_add]
    congr 1
    omega
  have h2 : 2 ^ (k - i) = 2 * 2 ^ (k - i - 1) := by
    rw [← pow_succ']
    congr 1
    omega
  have h3 : 2 ^ (mr + 1 - i) = 2 ^ (mr + 1 - k) * 2 ^ (k - i) := by
    rw [← pow_add]
    congr 1
    omega
  have h4 : 2 ^ (mr + 1 - k) = 2 * 2 ^ (mr - k) := by
    rw [← pow_succ']
    congr 1
    omega
  have hq : 2 ^ (k - 1) * e = (e * 2 ^ (k - i)) * 2 ^ (i - 1) := by
    rw [h1]
    ring
  have hpos : 1 ≤ 2 ^ (k - i - 1) := Nat.two_pow_pos _
  have hm : 1 ≤ e * 2 ^ (k - i) := by
    have : 1 ≤ e := by omega
    exact Nat.mul_pos this (Nat.two_pow_pos _)
  unfold exhaust_head
  rw [hq, div_pred_mul _ _ hm (Nat.two_pow_pos _)]
  have hodd : (e * 2 ^ (k - i) - 1) % 2 = 1 := by
    rw [h2]
    have : e * (2 * 2 ^ (k - i - 1)) = 2 * (e * 2 ^ (k - i - 1)) := by ring
    rw [this]
    have : 1 ≤ e * 2 ^ (k - i - 1) := Nat.mul_pos (by omega) hpos
    omega
  rw [if_pos hodd, h3, Nat.sub_mul]
  have hle2 : e * 2 ^ (k - i) ≤ 2 ^ (mr + 1 - k) * 2 ^ (k - i) :=
    Nat.mul_le_mul_right _ (by omega)
  congr 1
  omega

theorem exhaust_head_at {mr k e : Nat} (he : e % 2 = 1) :
    exhaust_head mr (2 ^ (k - 1) * e - 1) k = none := by
  unfold exhaust_head
  rw [Nat.mul_comm, div_pred_mul _ _ (by omega) (Nat.two_pow_pos _)]
  rw [if_neg (by omega)]

theorem exhaust_head_upper {mr k e i : Nat} (hk1 : 1 ≤ k) (hki : k < i) (he : e % 2 = 1) :
    exhaust_head mr (2 ^ (k - 1) * e - 1) i = exhaust_head mr (2 ^ (k - 1) * e) i := by
  unfold exhaust_head
  have h1 : 2 ^ (i - 1) = 2 ^ (k - 1) * (2 * 2 ^ (i - k - 1)) := by
    rw [← pow_succ', ← pow_add]
    congr 1
    omega
  have hne : (2 ^ (k - 1) * e) % 2 ^ (i - 1) ≠ 0 := by
    intro h0
    have hdvd : 2 ^ (i - 1) ∣ 2 ^ (k - 1) * e := Nat.dvd_of_mod_eq_zero h0
    rw [h1] at hdvd
    have h2 : 2 * 2 ^ (i - k - 1) ∣ e := Nat.dvd_of_mul_dvd_mul_left (Nat.two_pow_pos _) hdvd
    obtain ⟨c, hc⟩ := h2
    rw [hc, Nat.mul_assoc] at he
    omega
  rw [div_pred_of_mod_ne _ _ (Nat.two_pow_pos _) hne]

theorem exhaust_page {mr k e : Nat} (hk1 : 1 ≤ k) (hk : k ≤ mr)
    (hd : 2 ^ (k - 1) * e ≤ 2 ^ (mr - 1)) :
    node_page mr (mr - k) (2 ^ (mr + 1 - k) - e) = 2 ^ (mr - 1) - 2 ^ (k - 1) * e := by
  have hle := odd_le_pow hk1 hk hd
  have h4 : 2 ^ (mr + 1 - k) = 2 * 2 ^ (mr - k) := by
    rw [← pow_succ']
    congr 1
    omega
  have h1 : 2 ^ (mr - 1) = 2 ^ (mr - k) * 2 ^ (k - 1) := by
    rw [← pow_add]
    congr 1
    omega
  have e2 : mr - 1 - (mr - k) = k - 1 := by omega
  unfold node_page
  have h5 : 2 ^ (mr + 1 - k) - e - 2 ^ (mr - k) = 2 ^ (mr - k) - e := by omega
  rw [e2, h5, Nat.sub_mul, h1, Nat.mul_comm e]

theorem exists_level {mr x : Nat} (h1 : 1 ≤ x) (h2 : x < 2 ^ mr) :
    ∃ l : Nat, l < mr ∧ AtLevel l x := by
  refine ⟨Nat.log 2 x, ?_, Nat.pow_log_le_self 2 (by omega),
    Nat.lt_pow_succ_log_self (by norm_num) x⟩
  by_contra hc
  have h3 : 2 ^ mr ≤ 2 ^ Nat.log 2 x := Nat.pow_le_pow_right (by norm_num) (by omega)
  have h4 := Nat.pow_log_le_self 2 (by omega : x ≠ 0)
  omega

theorem exhaust_head_some {mr d r n : Nat} (h : exhaust_head mr d r = some n) :
    (d / 2 ^ (r - 1)) % 2 = 1 ∧ n = 2 ^ (mr + 1 - r) - d / 2 ^ (r - 1) := by
  unfold exhaust_head at h
  split at h
  · next hc => cases h; exact ⟨hc, rfl⟩
  · cases h

theorem exhaust_head_none {mr d r : Nat} (h : exhaust_head mr d r = none) :
    (d / 2 ^ (r - 1)) % 2 = 0 := by
  unfold exhaust_head at h
  split at h
  · cases h
  · omega

theorem Exhausting.heads {M : Nat} {base : Int} {mr j : Nat} {s : State}
    (h : Exhausting M base mr j s) (r : Nat) (hr1 : 1 ≤ r) (hr : r ≤ mr) :
    (s.free_list (r - 1)).head = exhaust_head mr (2 ^ (mr - 1) - j) r := by
  rw [h.lists r hr1 hr]

theorem Fresh.exhausting {M : Nat} {base pg : Int} {mr : Nat} {s : State}
    (h : Fresh M zero_state base pg mr s) : Exhausting M base mr 0 s where
  inv := h.inv
  le := Nat.zero_le _
  next := by
    intro x
    by_cases hx : x < 1 ∨ 2 ^ mr ≤ x
    · rw [h.nodes_outside x hx]
      rfl
    · obtain ⟨l, hl, hlx⟩ := exists_level (by omega : 1 ≤ x) (by omega : x < 2 ^ mr)
      rw [h.nodes l x hl hlx]
  lists := by
    intro r hr1 hr
    have hmr := h.mr_pos
    unfold exhaust_head
    rw [Nat.sub_zero]
    by_cases hrm : r = mr
    · subst hrm
      rw [h.list_top, Nat.div_self (Nat.two_pow_pos _), if_pos (by norm_num)]
      have : r + 1 - r = 1 := by omega
      rw [this]
      rfl
    · rw [h.lists_below (r - 1) (by omega)]
      have h1 : 2 ^ (mr - 1) = 2 ^ (r - 1) * (2 * 2 ^ (mr - r - 1)) := by
        rw [← pow_succ', ← pow_add]
        congr 1
        omega
      rw [h1, Nat.mul_div_cancel_left _ (Nat.two_pow_pos _), if_neg (by omega)]
      rfl

theorem exhaust_step {M : Nat} {base : Int} {mr j : Nat} {s : State}
    (hE : Exhausting M base mr j s) (hj : j < 2 ^ (mr - 1)) :
    ∃ s', alloc_pages M s 1 = some (.ok (base + (j : Int) * 4096), s') ∧
      Exhausting M base mr (j + 1) s' := by
  have hI := hE.inv
  have hmr := hI.mr_pos
  have hM := hI.mr_le
  obtain ⟨⟨res, s'⟩, e, hs⟩ := alloc_pages_spec hI 1 (le_refl _) (by omega)
  have hok : ∃ p, res = .ok p := by
    rcases hs with ⟨h1, h2⟩ | ⟨k, n, -, -, -, -, -, h6, -⟩
    · exfalso
      have hdvd := pow_dvd_of_even_quotients (2 ^ (mr - 1) - j) mr (fun i hi => by
        have := h2 (i + 1) (by omega) (by omega)
        rw [hE.heads (i + 1) (by omega) (by omega)] at this
        exact exhaust_head_none this)
      have h3 := Nat.le_of_dvd (by omega) hdvd
      have h4 : 2 ^ mr = 2 * 2 ^ (mr - 1) := by
        rw [← pow_succ']
        congr 1
        omega
      omega
    · exact ⟨_, h6⟩
  obtain ⟨p, rfl⟩ := hok
  have e' : alloc_pages M s 1 = some (.ok p, s') := by exact_mod_cast e
  obtain ⟨k, n, hk1, hk, hh, hmin, hn, -, hp, hl, hnx, I1⟩ :=
    alloc_pages_post hI 1 (le_refl _) e'
  rw [hE.heads k hk1 hk] at hh
  obtain ⟨hodd, hnv⟩ := exhaust_head_some hh
  have hdvd := pow_dvd_of_even_quotients (2 ^ (mr - 1) - j) (k - 1) (fun i hi => by
    have := hmin (i + 1) (by omega) (by omega)
    rw [hE.heads (i + 1) (by omega) (by omega)] at this
    exact exhaust_head_none this)
  obtain ⟨q, hq⟩ := hdvd
  rw [hq, Nat.mul_div_cancel_left _ (Nat.two_pow_pos _)] at hodd hnv
  have hd : 2 ^ (k - 1) * q ≤ 2 ^ (mr - 1) := by omega
  have hpage := exhaust_page hk1 hk hd
  rw [← hnv] at hpage
  have hd1 : 2 ^ (mr - 1) - (j + 1) = 2 ^ (k - 1) * q - 1 := by omega
  refine ⟨s', ?_, I1, by omega, ?_, ?_⟩
  · rw [e', hp, hpage]
    have : ((2 ^ (mr - 1) - 2 ^ (k - 1) * q : Nat) : Int) = (j : Int) := by omega
    rw [this, mul_comm]
  · intro x
    rw [hnx x]
    split
    · rfl
    · exact hE.next x
  · intro r hr1 hr
    rw [hl (r - 1), hd1]
    by_cases h1 : 1 - 1 ≤ r - 1 ∧ r - 1 < k - 1
    · rw [if_pos h1, exhaust_head_lower hr1 (by omega) hk hodd hd, hnv]
      have : k - 1 - (r - 1) = k - r := by omega
      rw [this]
      rfl
    · rw [if_neg h1]
      by_cases h2 : r - 1 = k - 1
      · have hrk : r = k := by omega
        rw [if_pos h2, hrk, exhaust_head_at hodd, hE.next n, hE.lists k hk1 hk, hh]
        have hdec : size_dec 1 = 0 := by
          unfold size_dec
          norm_num
        simp only [Option.toList, List.length_cons, List.length_nil, Nat.zero_add, hdec]
      · rw [if_neg h2, exhaust_head_upper hk1 (by omega) hodd, ← hq]
        exact hE.lists r hr1 hr

theorem exhaust_run {M : Nat} {base : Int} {mr : Nat} :
    ∀ (n j : Nat) (s : State), Exhausting M base mr j s → j + n ≤ 2 ^ (mr - 1) →
      ∃ s', alloc_ones M n s
          = some ((List.range n).map (fun i => .ok (base + ((j + i : Nat) : Int) * 4096)), s') ∧
        Exhausting M base mr (j + n) s' := by
  intro n
  induction n with
  | zero =>
    intro j s hE _
    exact ⟨s, rfl, hE⟩
  | succ n ih =>
    intro j s hE hjn
    obtain ⟨s1, e1, E1⟩ := exhaust_step hE (by omega)
    obtain ⟨s2, e2, E2⟩ := ih (j + 1) s1 E1 (by omega)
    refine ⟨s2, ?_, by have : j + (n + 1) = j + 1 + n := by omega
                       rw [this]; exact E2⟩
    unfold alloc_ones
    rw [e1]
    simp only []
    rw [e2]
    simp only [Option.map_some', List.range_succ_eq_map, List.map_cons, List.map_map]
    have hf : ((fun i => (Except.ok (base + ((j + i : Nat) : Int) * 4096) : Except Errno Int))
        ∘ Nat.succ) = fun i => Except.ok (base + ((j + 1 + i : Nat) : Int) * 4096) := by
      funext i
      simp only [Function.comp, Nat.succ_eq_add_one]
      rw [show j + (i + 1) = j + 1 + i by omega]
    rw [hf]
    rfl

/-- C16: after `init_page(base, pgcount)` with `pgcount ≥ 1` on the zero-initialised
allocator, the first `2 ^ (max_rank - 1) = max_page_num` calls `alloc_pages(1)` all succeed;
their results are `base`, `base + 4096`, ..., one per page in ascending order, hence pairwise
distinct; afterwards the free list of every rank `1 .. max_rank` is empty (its head is null,
its size is 0, and `query_page_counts` returns 0) and `alloc_pages(k)` returns `-ENOSPC` for
every `k` in `[1, max_rank]`, leaving the state as it is. -/
theorem alloc_pages_exhausts_arena (M : Nat) (base pgcount : Int) (hM : 1 ≤ M)
    (hpg : 1 ≤ pgcount) (hsmall : M ≤ 19 ∨ pgcount < 2 ^ 19) :
    ∃ (s0 s1 : State) (mr : Nat) (results : List (Except Errno Int)),
      init_page M zero_state base pgcount = some (.ok (), s0) ∧
      s0.max_rank = mr ∧ s0.max_page_num = ((2 ^ (mr - 1) : Nat) : Int) ∧
      alloc_ones M (2 ^ (mr - 1)) s0 = some (results, s1) ∧
      results = (List.range (2 ^ (mr - 1))).map (fun k => .ok (base + (k : Int) * 4096)) ∧
      results.Nodup ∧
      (∀ r : Nat, 1 ≤ r → r ≤ mr → s1.free_list (r - 1) = { head := none, size := 0 } ∧
        query_page_counts M s1 r = some 0) ∧
      ∀ k : Nat, 1 ≤ k → k ≤ mr → alloc_pages M s1 k = some (.error .ENOSPC, s1) := by
  obtain ⟨s0, mr, e0, hF⟩ := init_page_spec M zero_state base pgcount hM hpg hsmall
  obtain ⟨s1, e1, hE⟩ := exhaust_run (2 ^ (mr - 1)) 0 s0 hF.exhausting (by omega)
  have hmrM := hE.inv.mr_le
  have hlists : ∀ r : Nat, 1 ≤ r → r ≤ mr →
      s1.free_list (r - 1) = { head := none, size := 0 } := by
    intro r hr1 hr
    have h0 : exhaust_head mr (2 ^ (mr - 1) - (0 + 2 ^ (mr - 1))) r = none := by
      unfold exhaust_head
      rw [if_neg]
      simp
    rw [hE.lists r hr1 hr, h0]
    rfl
  have hheads : ∀ r : Nat, 1 ≤ r → r ≤ mr → (s1.free_list (r - 1)).head = none := by
    intro r hr1 hr
    rw [hlists r hr1 hr]
  have hcounts : ∀ r : Nat, 1 ≤ r → r ≤ mr → query_page_counts M s1 r = some 0 := by
    intro r hr1 hr
    unfold query_page_counts
    rw [getList_eq (k := r - 1) (by omega) (by omega), some_bind, hlists r hr1 hr]
    rfl
  refine ⟨s0, s1, mr, _, e0, hF.max_rank_eq, hF.max_page_num_eq, e1, ?_, ?_,
    fun r hr1 hr => ⟨hlists r hr1 hr, hcounts r hr1 hr⟩, ?_⟩
  · simp only [Nat.zero_add]
  · apply List.Nodup.map _ (List.nodup_range _)
    intro a b hab
    simp only [Nat.zero_add, Except.ok.injEq] at hab
    omega
  · intro k hk1 hk
    obtain ⟨res, e, hs⟩ := alloc_pages_spec hE.inv k hk1 (by omega)
    rcases hs with ⟨h1, -⟩ | ⟨k', n, h1, h2, h3, -⟩
    · rw [e, h1]
    · rw [hheads k' (by omega) h2] at h3
      cases h3

set_option maxRecDepth 100000 in
/-- C16 at a concrete input: 5 pages with `MAX_RANK = 16` give an arena of 4 pages; four
calls `alloc_pages(1)` return the pages 0, 1, 2, 3, the fifth allocates nothing, and the
free lists of the ranks 1, 2, 3 are empty. -/
theorem alloc_pages_exhausts_arena_witness :
    ((1 : Int) ≤ 5 ∧
     ∃ (s0 s1 : State) (mr : Nat) (results : List (Except Errno Int)),
      init_page 16 zero_state 65536 5 = some (.ok (), s0) ∧
      s0.max_rank = mr ∧ s0.max_page_num = ((2 ^ (mr - 1) : Nat) : Int) ∧
      alloc_ones 16 (2 ^ (mr - 1)) s0 = some (results, s1) ∧
      results = (List.range (2 ^ (mr - 1))).map (fun k => .ok (65536 + (k : Int) * 4096)) ∧
      results.Nodup ∧
      (∀ r : Nat, 1 ≤ r → r ≤ mr → s1.free_list (r - 1) = { head := none, size := 0 } ∧
        query_page_counts 16 s1 r = some 0) ∧
      ∀ k : Nat, 1 ≤ k → k ≤ mr → alloc_pages 16 s1 k = some (.error .ENOSPC, s1)) ∧
    (boot 16 65536 5 [.alloc_pages 1, .alloc_pages 1, .alloc_pages 1, .alloc_pages 1,
        .alloc_pages 1]).map (fun st => (st.2, free_lists st.1 3))
      = some ([(65536 + 3 * 4096, 1), (65536 + 2 * 4096, 1), (65536 + 4096, 1), (65536, 1)],
          [[], [], []]) :=
  ⟨⟨by decide, alloc_pages_exhausts_arena 16 65536 5 (by decide) (by decide) (by decide)⟩,
    by rfl⟩

/-! ## The walk of `query_ranks` -/

theorem land_neg_eq (j m : Nat) (h : 2 ^ j * (2 * m + 1) < 2 ^ 32) :
    2 ^ j * (2 * m + 1) &&& (2 ^ 32 - 2 ^ j * (2 * m + 1)) = 2 ^ j := by
  have hpos : 0 < 2 ^ j := Nat.two_pow_pos j
  have hj : j < 32 := by
    by_contra hc
    have h1 : 2 ^ 32 ≤ 2 ^ j := Nat.pow_le_pow_right (by norm_num) (by omega)
    have h2 : 2 ^ j * 1 ≤ 2 ^ j * (2 * m + 1) := Nat.mul_le_mul_left _ (by omega)
    omega
  have e1 : 2 ^ j * (2 * m + 1) = 2 ^ j * (2 * m + 1) + 0 := rfl
  have e2 : 2 ^ 32 - 2 ^ j * (2 * m + 1) = 2 ^ 32 - (2 ^ j * (2 * m) + (2 ^ j - 1) + 1) := by
    have : 2 ^ j * (2 * m + 1) = 2 ^ j * (2 * m) + 2 ^ j := by ring
    omega
  have hy : 2 ^ j * (2 * m) + (2 ^ j - 1) < 2 ^ 32 := by
    have : 2 ^ j * (2 * m + 1) = 2 ^ j * (2 * m) + 2 ^ j := by ring
    omega
  apply Nat.eq_of_testBit_eq
  intro i
  rw [Nat.testBit_and, Nat.testBit_two_pow, e2, Nat.testBit_two_pow_sub_succ hy,
    Nat.testBit_mul_pow_two_add _ (by omega : 2 ^ j - 1 < 2 ^ j), Nat.testBit_two_pow_sub_one]
  nth_rewrite 1 [e1]
  rw [Nat.testBit_mul_pow_two_add _ hpos]
  by_cases h1 : i < j
  · simp [h1, Nat.ne_of_gt h1]
  · by_cases h2 : i = j
    · subst h2
      simp [hj]
      omega
    · obtain ⟨d, hd⟩ : ∃ d, i - j = d + 1 := ⟨i - j - 1, by omega⟩
      have h3 : (2 * m + 1) / 2 = m := by omega
      have h4 : 2 * m / 2 = m := by omega
      simp [h1, hd, Nat.testBit_succ, h3, h4, Ne.symm h2]
      intro hb _
      exact hb

theorem lowbit_eq (j m : Nat) (h : 2 ^ j * (2 * m + 1) < 2 ^ 31) :
    lowbit ((2 ^ j * (2 * m + 1) : Nat) : Int) = ((2 ^ j : Nat) : Int) := by
  have hpos : 0 < 2 ^ j := Nat.two_pow_pos j
  have h2 : 2 ^ j * 1 ≤ 2 ^ j * (2 * m + 1) := Nat.mul_le_mul_left _ (by omega)
  generalize hx : 2 ^ j * (2 * m + 1) = x at h h2
  have a1 : (((x : Nat) : Int) % 2 ^ 32).toNat = x := by
    norm_num
    omega
  have a2 : ((-((x : Nat) : Int)) % 2 ^ 32).toNat = 2 ^ 32 - x := by
    norm_num
    omega
  unfold lowbit
  rw [a1, a2, ← hx, land_neg_eq j m (by omega)]
  apply wrap32_of_range
  · exact le_trans (by norm_num) (Int.ofNat_nonneg _)
  · have : ((2 ^ j : Nat) : Int) < ((2 ^ 31 : Nat) : Int) := by
      apply Int.ofNat_lt.mpr
      omega
    simpa using this

/-- Recording the reads does not change the loop. -/
theorem query_walk_probes_fst (M : Nat) (s : State) (bound : Int) :
    ∀ (fuel : Nat) (i rank : Int),
      (query_walk_probes M s bound fuel i rank).map Prod.fst
        = query_walk M s bound fuel i rank := by
  intro fuel
  induction fuel with
  | zero => intro i rank; rfl
  | succ f ih =>
    intro i rank
    unfold query_walk_probes query_walk
    split
    · cases getRank M s i with
      | none => rfl
      | some r =>
        simp only [some_bind]
        split
        · rfl
        · rw [← ih]
          cases query_walk_probes M s bound f (i + lowbit i) (rank + 1) <;> rfl
    · rfl

/-- Recording the reads does not change `query_ranks`. -/
theorem query_ranks_probes_fst (M : Nat) (s : State) (p : Int) :
    (query_ranks_probes M s p).map Prod.fst = query_ranks M s p := by
  unfold query_ranks_probes query_ranks
  simp only []
  split
  · rfl
  · cases getRank M s (wrap32 (page_of s p)) with
    | none => rfl
    | some r =>
      simp only [some_bind]
      split
      · cases shl 1 (s.max_rank - 1) with
        | none => rfl
        | some one =>
          simp only [some_bind]
          rw [← query_walk_probes_fst]
          cases query_walk_probes M s _ _ _ _ <;> rfl
      · rfl

/-- The lowest set bit of `2 ^ n | k` for a page index `k < 2 ^ n`. -/
theorem lowbit_decompose {n k : Nat} (hk : k < 2 ^ n) :
    ∃ t c m : Nat, t ≤ n ∧ k = 2 ^ t * c ∧ k + 2 ^ t ≤ 2 ^ n ∧
      2 ^ n ||| k = 2 ^ t * (2 * m + 1) := by
  have hor : 2 ^ n ||| k = 2 ^ n + k := by
    have := Nat.mul_add_lt_is_or hk 1
    rw [Nat.mul_one] at this
    exact this.symm
  rw [hor]
  by_cases h0 : k = 0
  · subst h0
    exact ⟨n, 0, 0, le_refl _, by simp, by simp, by simp⟩
  · obtain ⟨t, c, ⟨m, hm⟩, hc⟩ := Nat.exists_eq_two_pow_mul_odd h0
    subst hm
    have hpos : 0 < 2 ^ t := Nat.two_pow_pos t
    have h1 : 2 ^ t * 1 ≤ 2 ^ t * (2 * m + 1) := Nat.mul_le_mul_left _ (by omega)
    have htn : t < n := by
      by_contra hcon
      have : 2 ^ n ≤ 2 ^ t := Nat.pow_le_pow_right (by norm_num) (by omega)
      omega
    have h2 : 2 ^ n = 2 ^ t * (2 * 2 ^ (n - t - 1)) := by
      rw [← pow_succ', ← pow_add]
      congr 1
      omega
    have h3 : 2 * m + 1 < 2 * 2 ^ (n - t - 1) := by
      rw [hc, h2] at hk
      exact Nat.lt_of_mul_lt_mul_left hk
    refine ⟨t, 2 * m + 1, 2 ^ (n - t - 1) + m, by omega, hc, ?_, ?_⟩
    · have h4 : 2 ^ t * (2 * m + 1 + 1) ≤ 2 ^ t * (2 * 2 ^ (n - t - 1)) :=
        Nat.mul_le_mul_left _ (by omega)
      rw [hc, h2]
      rw [Nat.mul_add, Nat.mul_one] at h4
      exact h4
    · rw [hc, h2]
      ring

theorem query_walk_probes_spec {M : Nat} {s : State} {k t c : Nat} (hk : k = 2 ^ t * c)
    (hle : k + 2 ^ t ≤ MAX_PAGE_NUM M) (hsmall : k + 2 ^ t < 2 ^ 31) :
    ∀ (d j fuel : Nat), j + d = t → d < fuel →
      ∃ r : Nat,
        query_walk_probes M s ((k : Int) + ((2 ^ t : Nat) : Int)) fuel
            ((k + 2 ^ j : Nat) : Int) ((j + 1 : Nat) : Int)
          = some ((r : Int),
              (List.range' j (min r t - j)).map fun a => ((k + 2 ^ a : Nat) : Int)) ∧
        j + 1 ≤ r ∧ r ≤ t + 1 ∧
        (∀ a : Nat, j ≤ a → a + 1 < r → s.rank_of_page (k + 2 ^ a) = -1) ∧
        (r ≤ t → s.rank_of_page (k + 2 ^ (r - 1)) ≠ -1) := by
  intro d
  induction d with
  | zero =>
    intro j fuel hj hf
    obtain ⟨f, rfl⟩ : ∃ f, fuel = f + 1 := ⟨fuel - 1, by omega⟩
    have hjt : j = t := by omega
    subst hjt
    refine ⟨j + 1, ?_, le_refl _, le_refl _, fun a h1 h2 => by omega, fun h => by omega⟩
    unfold query_walk_probes
    rw [if_neg (by push_cast; omega)]
    have : min (j + 1) j - j = 0 := by omega
    rw [this]
    rfl
  | succ d ih =>
    intro j fuel hj hf
    obtain ⟨f, rfl⟩ : ∃ f, fuel = f + 1 := ⟨fuel - 1, by omega⟩
    have hjt : j < t := by omega
    have hlt : 2 ^ j < 2 ^ t := Nat.pow_lt_pow_right (by norm_num) hjt
    unfold query_walk_probes
    rw [if_pos (by exact_mod_cast (by omega : k + 2 ^ j < k + 2 ^ t)),
      getRank_eq rfl (by omega), some_bind]
    by_cases hr : s.rank_of_page (k + 2 ^ j) ≠ -1
    · rw [if_pos hr]
      refine ⟨j + 1, ?_, le_refl _, by omega, fun a h1 h2 => by omega, fun _ => ?_⟩
      · have : min (j + 1) t - j = 1 := by omega
        rw [this]
        rfl
      · rw [Nat.add_sub_cancel]
        exact hr
    · rw [if_neg hr]
      have hr1 : s.rank_of_page (k + 2 ^ j) = -1 := by
        by_contra hcon
        exact hr hcon
      have hform : k + 2 ^ j = 2 ^ j * (2 * (2 ^ (t - j - 1) * c) + 1) := by
        have : 2 ^ t = 2 ^ j * (2 * 2 ^ (t - j - 1)) := by
          rw [← pow_succ', ← pow_add]
          congr 1
          omega
        rw [hk, this]
        ring
      have hlow : lowbit ((k + 2 ^ j : Nat) : Int) = ((2 ^ j : Nat) : Int) := by
        rw [hform]
        exact lowbit_eq j _ (by rw [← hform]; omega)
      have hnext : ((k + 2 ^ j : Nat) : Int) + ((2 ^ j : Nat) : Int)
          = ((k + 2 ^ (j + 1) : Nat) : Int) := by
        rw [pow_succ]
        push_cast
        ring
      have hrank : ((j + 1 : Nat) : Int) + 1 = ((j + 1 + 1 : Nat) : Int) := by
        push_cast
        ring
      obtain ⟨r, e, h1, h2, h3, h4⟩ := ih (j + 1) f (by omega) (by omega)
      rw [hlow, hnext, hrank, e, some_bind]
      refine ⟨r, ?_, by omega, h2, ?_, h4⟩
      · have : min r t - j = (min r t - (j + 1)) + 1 := by omega
        rw [this, List.range'_succ]
        rfl
      · intro a ha1 ha2
        by_cases haj : a = j
        · rw [haj]
          exact hr1
        · exact h3 a (by omega) ha2

set_option maxRecDepth 100000 in
/-- C20, counterexample: on the 16-page arena after `alloc_pages(1)` twice and
`return_pages` of page 0, the entry of page 0 is `-1` and `lowbit(16 | 0)` is `2 ^ 4`, but
`query_ranks` of page 0 reads `rank_of_page` at index 1 only, not at 1, 2, 4 and 8: page 1
is allocated, the loop leaves at its `break`, and the result is 1. -/
theorem query_ranks_walk_stops_early :
    (boot 16 65536 16 [.alloc_pages 1, .alloc_pages 1, .return_pages 65536]).map
        (fun st => (st.1.rank_of_page 0, st.1.rank_of_page 1, st.1.max_page_num,
          lowbit ((st.1.max_page_num.toNat ||| 0 : Nat) : Int),
          query_ranks_probes 16 st.1 65536, query_ranks 16 st.1 65536))
      = some (-1, 1, 16, 2 ^ 4, some (.ok 1, [1]), some (.ok 1)) := by
  rfl

/-- C20, amended: in every state reached after `init_page(base, pgcount)`, for a page index
`k < max_page_num` with `rank_of_page[k] = -1` and `2 ^ t = lowbit(max_page_num | k)`, the
loop of `query_ranks` terminates and the call returns a rank `r` with `1 ≤ r ≤ t + 1 ≤
max_rank`; the loop reads `rank_of_page` at the indices `k + 2 ^ j` in the order
`j = 0, 1, ...` and stops after the first entry that is not `-1`, or after `j = t - 1` when
there is none: the indices read are those with `j < min r t`, the entries read before the
last are `-1`, and when `r ≤ t` the last entry read, at `k + 2 ^ (r - 1)`, is not `-1`.
Every index `k + 2 ^ j` with `j < t` lies strictly between `k` and `max_page_num`, inside the
array. -/
theorem query_ranks_walk_bounds {M : Nat} {base pgcount : Int} {s : State}
    {out : List Allocation} (hR : Reachable M base pgcount s out) (k : Nat)
    (hk : (k : Int) < s.max_page_num) (hfree : s.rank_of_page k = -1) :
    ∃ t r : Nat,
      lowbit ((s.max_page_num.toNat ||| k : Nat) : Int) = ((2 ^ t : Nat) : Int) ∧
      query_ranks_probes M s (base + 4096 * (k : Int))
        = some (.ok (r : Int),
            (List.range (min r t)).map fun j => ((k + 2 ^ j : Nat) : Int)) ∧
      query_ranks M s (base + 4096 * (k : Int)) = some (.ok (r : Int)) ∧
      (∀ j : Nat, j + 1 < r → s.rank_of_page (k + 2 ^ j) = -1) ∧
      (r ≤ t → s.rank_of_page (k + 2 ^ (r - 1)) ≠ -1) ∧
      (∀ j : Nat, j < t → k < k + 2 ^ j ∧ ((k + 2 ^ j : Nat) : Int) < s.max_page_num ∧
        k + 2 ^ j < MAX_PAGE_NUM M) ∧
      1 ≤ r ∧ r ≤ t + 1 ∧ ((t + 1 : Nat) : Int) ≤ s.max_rank := by
  obtain ⟨mr, hI⟩ := reachable_inv hR
  have hmr1 := hI.mr_pos
  have hmrs := hI.mr_small
  have hmp := hI.max_page_num_eq
  have hle := max_page_num_le hI.mr_le
  have hkn : k < 2 ^ (mr - 1) := by
    rw [hmp] at hk
    exact_mod_cast hk
  have hpow : 2 ^ (mr - 1) ≤ 2 ^ 18 := Nat.pow_le_pow_right (by norm_num) (by omega)
  obtain ⟨t, c, m, htn, hkc, hkt, hor⟩ := lowbit_decompose hkn
  have hsm : 2 ^ t * (2 * m + 1) < 2 ^ 31 := by
    rw [← hor]
    have := Nat.mul_add_lt_is_or hkn 1
    rw [Nat.mul_one] at this
    omega
  obtain ⟨r, e, h1, h2, h3, h4⟩ := query_walk_probes_spec (M := M) (s := s) hkc (by omega)
    (by omega) t 0 (2 ^ t + 1) (by omega) (by have := Nat.lt_two_pow t; omega)
  have hprobes : query_ranks_probes M s (base + 4096 * (k : Int))
      = some (.ok (r : Int),
          (List.range (min r t)).map fun j => ((k + 2 ^ j : Nat) : Int)) := by
    unfold query_ranks_probes
    simp only []
    rw [page_of_node hI hkn, if_neg (by omega), getRank_eq rfl (by omega), some_bind, hfree,
      if_pos rfl, shl_one_eq (by rw [hI.max_rank_eq]; omega : s.max_rank - 1 = ((mr - 1 : Nat) : Int))
        (by omega), some_bind]
    simp only [Int.toNat_ofNat, Int.ofNat_eq_coe]
    rw [hor, lowbit_eq t m hsm, Int.toNat_ofNat]
    have e1 : (k : Int) + 1 = ((k + 2 ^ 0 : Nat) : Int) := by simp
    have e2 : (1 : Int) = ((0 + 1 : Nat) : Int) := by simp
    rw [e1]
    nth_rewrite 1 [e2]
    rw [e, some_bind, List.range_eq_range', Nat.sub_zero]
  refine ⟨t, r, ?_, hprobes, ?_, fun j hj => h3 j (Nat.zero_le _) hj, h4, ?_, by omega, h2, ?_⟩
  · rw [hmp, Int.toNat_ofNat, hor]
    exact lowbit_eq t m hsm
  · rw [← query_ranks_probes_fst, hprobes]
    rfl
  · intro j hj
    have hlt : 2 ^ j < 2 ^ t := Nat.pow_lt_pow_right (by norm_num) hj
    have hpos : 0 < 2 ^ j := Nat.two_pow_pos j
    refine ⟨by omega, ?_, by omega⟩
    rw [hmp]
    exact_mod_cast (by omega : k + 2 ^ j < 2 ^ (mr - 1))
  · rw [hI.max_rank_eq]
    exact_mod_cast (by omega : t + 1 ≤ mr)


set_option maxRecDepth 100000 in
/-- C20 at a concrete input: page 0 of the 16-page arena after `alloc_pages(1)` twice and
`return_pages` of page 0. -/
theorem query_ranks_walk_bounds_witness :
    Reachable 16 65536 16 arena16_hole [(69632, 1)] ∧
    ((0 : Nat) : Int) < arena16_hole.max_page_num ∧ arena16_hole.rank_of_page 0 = -1 ∧
    ∃ t r : Nat,
      lowbit ((arena16_hole.max_page_num.toNat ||| 0 : Nat) : Int) = ((2 ^ t : Nat) : Int) ∧
      query_ranks_probes 16 arena16_hole (65536 + 4096 * ((0 : Nat) : Int))
        = some (.ok (r : Int),
            (List.range (min r t)).map fun j => ((0 + 2 ^ j : Nat) : Int)) ∧
      query_ranks 16 arena16_hole (65536 + 4096 * ((0 : Nat) : Int)) = some (.ok (r : Int)) ∧
      (∀ j : Nat, j + 1 < r → arena16_hole.rank_of_page (0 + 2 ^ j) = -1) ∧
      (r ≤ t → arena16_hole.rank_of_page (0 + 2 ^ (r - 1)) ≠ -1) ∧
      (∀ j : Nat, j < t → 0 < 0 + 2 ^ j ∧
        ((0 + 2 ^ j : Nat) : Int) < arena16_hole.max_page_num ∧
        0 + 2 ^ j < MAX_PAGE_NUM 16) ∧
      1 ≤ r ∧ r ≤ t + 1 ∧ ((t + 1 : Nat) : Int) ≤ arena16_hole.max_rank :=
  ⟨⟨[.alloc_pages 1, .alloc_pages 1, .return_pages 65536], by rfl⟩, by decide, by decide,
    query_ranks_walk_bounds (⟨[.alloc_pages 1, .alloc_pages 1, .return_pages 65536], by rfl⟩ :
        Reachable 16 65536 16 arena16_hole [(69632, 1)])
      0 (by decide) (by decide)⟩

end Buddy
